import Mathlib

/-!
Verification development for the `fnl/tokenizer` Go repository.

The scanner in `lexer.go` is embedded shallowly at the level of Unicode code
points: the buffer is a `List Char`, positions and widths count code points
(the Go code counts bytes of UTF-8; every splice in the source rewrites the
byte arithmetic so that positions always sit on rune boundaries, so the two
views coincide rune-for-rune).  Emission on the output channel is modelled by
returning the emitted tokens in order.  The scanner's state functions are
written with an explicit fuel argument so that every definition is structural
and computable; fuel sufficiency is proved separately.

The Go code consults the Unicode tables `unicode.IsLetter`, `unicode.IsDigit`,
the category test S/P/Nl/No, and `strings.ToLower`.  Those external tables are
abstracted into a structure `Uni` that carries the classifier functions
together with the handful of point facts about them that the source relies on
(all of them true of the real Unicode tables).  Theorems quantified over
`Uni` therefore hold for the actual Go classifiers.  A concrete instance
`goUni` models the tables on the code points exercised by concrete inputs.
-/

namespace Tokenizer

/-! ## Token data model, from `token.go` -/

/-- The class ("type") of a token, from `token.go`. -/
inductive TokenClass where
  | EndToken
  | LinebreakToken
  | WordToken
  | NumberToken
  | SpaceToken
  | SymbolToken
deriving DecidableEq

export TokenClass (EndToken LinebreakToken WordToken NumberToken SpaceToken SymbolToken)

/-- A token, as produced by the lexer (`token.go`): a class and a value. -/
structure Token where
  Class : TokenClass
  Value : List Char
deriving DecidableEq

/-- True if the token marks the end of an input (`token.go`). -/
def Token.IsEnd (t : Token) : Bool := t.Class = EndToken

/-- True if the token breaks lines (`token.go`). -/
def Token.IsLinebreak (t : Token) : Bool := t.Class = LinebreakToken

/-- True if the token is a word (`token.go`). -/
def Token.IsWord (t : Token) : Bool := t.Class = WordToken

/-- True if the token is a number (`token.go`). -/
def Token.IsNumber (t : Token) : Bool := t.Class = NumberToken

/-- True if the token is a space (`token.go`). -/
def Token.IsSpace (t : Token) : Bool := t.Class = SpaceToken

/-- True if the token is a symbol (`token.go`). -/
def Token.IsSymbol (t : Token) : Bool := t.Class = SymbolToken

/-! ## Options, from `lexer.go` (`Option` bit constants) -/

def Spaces : Nat := 1
def Linebreaks : Nat := 2
def Entities : Nat := 4
def Quotes : Nat := 8
def Lowercase : Nat := 16
def Greek : Nat := 32
def Hyphens : Nat := 64
def AllOptions : Nat := 127
def NoOptions : Nat := 0

/-- True if the scanner emits spaces (`lexer.go` emitsSpaces). -/
def emitsSpaces (o : Nat) : Bool := o &&& Spaces != 0

/-- True if the scanner emits EOL markers (`lexer.go` emitsLinebreaks). -/
def emitsLinebreaks (o : Nat) : Bool := o &&& Linebreaks != 0

/-- True if this lexer unescapes valid HTML entities (`lexer.go`). -/
def unescapesEntities (o : Nat) : Bool := o &&& Entities != 0

/-- True if this lexer normalizes two single quotes to double quotes (`lexer.go`). -/
def normalizesQuotes (o : Nat) : Bool := o &&& Quotes != 0

/-- True if this lexer lowercases words (`lexer.go`). -/
def lowersWords (o : Nat) : Bool := o &&& Lowercase != 0

/-- True if this lexer expands Greek letters to Latin names (`lexer.go`). -/
def expandsGreek (o : Nat) : Bool := o &&& Greek != 0

/-- True if this lexer maps dashes and hyphens to hyphen-minus (`lexer.go`). -/
def mapsHyphens (o : Nat) : Bool := o &&& Hyphens != 0

/-! ## Character tables, from `lexer.go` -/

/-- The rune `0`, returned by `scan` at the end of the buffer. -/
def nulChar : Char := Char.ofNat 0

/-- The apostrophe character U+0027. -/
def aposChar : Char := Char.ofNat 39

/-- The double-quote character U+0022. -/
def dquoteChar : Char := Char.ofNat 34

/-- All end-of-line runes that give rise to linebreak tokens
(`lexer.go` constant `EOLMarkers`). -/
def EOLMarkers : List Char := ['\n', '\x0B', '\x0C', '\r', '\u0085', '\u2028', '\u2029']

/-- Collection of Unicode hyphens and dashes except ASCII hyphen-minus
(`lexer.go` constant `hyphens`). -/
def hyphens : List Char :=
  ['\u00AD', '\u05BE', '\u2010', '\u2011', '\u2012', '\u2013', '\u2014', '\u2015',
   '\u2212', '\uFE58', '\uFE63', '\uFF0D']

/-- The word-connector characters a word may contain internally. -/
def connChars : List Char := ['-', '.', '_']

/-- Mapping of single to double quote runes (`lexer.go` map `normalQuote`);
the Go map sends each key to a one-rune string. -/
def normalQuote (r : Char) : Option Char :=
  if r = '\u2019' then some '\u201D'
  else if r = '\u2018' then some '\u201C'
  else if r = '\u201A' then some '\u201E'
  else if r = aposChar then some dquoteChar
  else none

/-- Mapping of Greek letters to Latin names (`lexer.go` map `greekLetter`). -/
def greekTable : List (Char × List Char) :=
  [('Α', "Alpha".toList), ('Β', "Beta".toList), ('Γ', "Gamma".toList),
   ('Δ', "Delta".toList), ('Ε', "Epsilon".toList), ('Ζ', "Zeta".toList),
   ('Η', "Eta".toList), ('Θ', "Theta".toList), ('Ι', "Iota".toList),
   ('Κ', "Kappa".toList), ('Λ', "Lamda".toList), ('Μ', "Mu".toList),
   ('Ν', "Nu".toList), ('Ξ', "Xi".toList), ('Ο', "Omicron".toList),
   ('Π', "Pi".toList), ('Ρ', "Rho".toList), ('Σ', "Sigma".toList),
   ('Τ', "Tau".toList), ('Υ', "Upsilon".toList), ('Φ', "Phi".toList),
   ('Χ', "Chi".toList), ('Ψ', "Psi".toList), ('Ω', "Omega".toList),
   ('α', "alpha".toList), ('β', "beta".toList), ('γ', "gamma".toList),
   ('δ', "delta".toList), ('ε', "epsilon".toList), ('ζ', "zeta".toList),
   ('η', "eta".toList), ('θ', "theta".toList), ('ι', "iota".toList),
   ('κ', "kappa".toList), ('λ', "lamda".toList), ('μ', "mu".toList),
   ('ν', "nu".toList), ('ξ', "xi".toList), ('ο', "omicron".toList),
   ('π', "pi".toList), ('ρ', "rho".toList), ('ς', "sigma".toList),
   ('σ', "sigma".toList), ('τ', "tau".toList), ('υ', "upsilon".toList),
   ('φ', "phi".toList), ('χ', "chi".toList), ('ψ', "psi".toList),
   ('ω', "omega".toList)]

/-- Lookup in the Greek table; a missing key plays the role of the Go map's
empty-string default. -/
def greekLetter (r : Char) : Option (List Char) := greekTable.lookup r

/-- True if the rune is any of the EOLMarkers (`lexer.go` isEOL). -/
def isEOL (r : Char) : Bool := EOLMarkers.contains r

/-- The seventeen code points of Unicode category Zs (separator, space).
`unicode.Is(unicode.Zs, r)` consults exactly this set. -/
def zsChars : List Char :=
  ['\u0020', '\u00A0', '\u1680', '\u2000', '\u2001', '\u2002', '\u2003', '\u2004',
   '\u2005', '\u2006', '\u2007', '\u2008', '\u2009', '\u200A', '\u202F', '\u205F',
   '\u3000']

/-- True if the rune is a Unicode space or tab (`lexer.go` isSpace,
`unicode.Is(unicode.Zs, r) || r == tab`). -/
def isSpace (r : Char) : Bool := zsChars.contains r || r = '\t'

/-! ## The entity machinery, from `lexer.go` (`entity` regexp and
`html.UnescapeString`) -/

/-- An ASCII word character, the character class of the Go regexp escape used
in the pattern `^&\w+;` of `lexer.go`. -/
def isWordChar (c : Char) : Bool := c.isAlphanum || c = '_'

/-- `entity.FindStringIndex` for the anchored regexp of `lexer.go`
(one ampersand, one or more word characters, one semicolon): returns the
length of the match when the string starts with one, else `none`. -/
def entityMatch (s : List Char) : Option Nat :=
  match s with
  | [] => none
  | c :: rest =>
    if c = '&' then
      let n := (rest.takeWhile isWordChar).length
      if 0 < n ∧ rest.getD n nulChar = ';' then some (n + 2) else none
    else none

/-- Named character references and their decodings.  This models the table
behind the Go standard library `html.UnescapeString`, restricted to the named
references exercised in this development; every decoding here agrees with the
HTML specification. -/
def entityTable : List (List Char × List Char) :=
  [("amp".toList, ['&']), ("lt".toList, ['<']), ("gt".toList, ['>']),
   ("quot".toList, [dquoteChar]), ("apos".toList, [aposChar]),
   ("nbsp".toList, ['\u00A0'])]

/-- Models the Go standard library `html.UnescapeString` on the spans matched
by the entity regexp: a reference whose name is in `entityTable` decodes to
its replacement text, anything else is returned unchanged. -/
def htmlUnescape (orig : List Char) : List Char :=
  if orig.head? = some '&' ∧ (orig.drop 1).getLast? = some ';' then
    (entityTable.lookup (orig.drop 1).dropLast).getD orig
  else orig

/-! ## The Unicode classifier abstraction

The scanner consults `unicode.IsLetter`, `unicode.IsDigit`, the category test
for S, P, Nl and No used by `isSymbol`, and `strings.ToLower` (whose
rune-by-rune action is `unicode.ToLower`).  These process-wide tables are kept
abstract; the structure records the point facts about them that the proofs
use, each of which is a fact of the real Unicode tables:
the rune `0` is neither a letter, a digit, nor in the symbol categories
(it is a control character); the connectors and the ampersand are neither
letters nor digits (they are punctuation); lowercasing never produces a
connector from a non-connector (`unicode.ToLower` fixes every uncased rune
and maps cased letters to letters). -/
structure Uni where
  isLetter : Char → Bool
  isDigit : Char → Bool
  isSymbol : Char → Bool
  toLower : Char → Char
  isLetter_nul : isLetter nulChar = false
  isDigit_nul : isDigit nulChar = false
  isSymbol_nul : isSymbol nulChar = false
  isLetter_conn : ∀ c ∈ connChars, isLetter c = false
  isDigit_conn : ∀ c ∈ connChars, isDigit c = false
  isLetter_amp : isLetter '&' = false
  isDigit_amp : isDigit '&' = false
  isLetter_hyphens : ∀ c ∈ hyphens, isLetter c = false
  isDigit_hyphens : ∀ c ∈ hyphens, isDigit c = false
  toLower_conn : ∀ c, c ∉ connChars → toLower c ∉ connChars

/-- True if the rune is a Unicode letter or digit (`lexer.go` isLetterOrDigit). -/
def Uni.isLetterOrDigit (u : Uni) (r : Char) : Bool := u.isLetter r || u.isDigit r

/-! ## The lexer state, from `lexer.go` (struct `lexer`)

The Go struct also carries a random `name` used only for logging and the two
channels; the channels are modelled by the explicit item argument and the
returned token lists, and the name never influences scanning. -/

structure Lexer where
  buffer : List Char
  start : Nat
  pos : Nat
  width : Nat
  options : Nat
deriving DecidableEq

/-- Number of code points not yet consumed; the measure for fuel sufficiency. -/
def Lexer.remaining (l : Lexer) : Nat := l.buffer.length - l.pos

/-- `scan` returns the next rune in the buffer, or the rune `0` with width `0`
if there are no more runes to decode; with the Hyphens option it splices a
Unicode hyphen to the ASCII hyphen-minus before advancing (`lexer.go` scan). -/
def Lexer.scan (l : Lexer) : Char × Lexer :=
  if l.buffer.length ≤ l.pos then (nulChar, { l with width := 0 })
  else
    let r := l.buffer.getD l.pos nulChar
    if mapsHyphens l.options ∧ hyphens.contains r then
      ('-', { l with buffer := l.buffer.take l.pos ++ '-' :: l.buffer.drop (l.pos + 1),
                     width := 1, pos := l.pos + 1 })
    else (r, { l with width := 1, pos := l.pos + 1 })

/-- `undo` moves the scanner back one rune; can only undo the last scan
(`lexer.go` undo). -/
def Lexer.undo (l : Lexer) : Lexer := { l with pos := l.pos - l.width, width := 0 }

/-- `ignore` skips over the scanned runes instead of emitting them
(`lexer.go` ignore). -/
def Lexer.ignore (l : Lexer) : Lexer := { l with start := l.pos }

/-- `peek` previews the next rune without consuming it, preserving the stored
width (`lexer.go` peek).  The buffer splice a hyphen-mapping scan performs is
kept, exactly as in the source. -/
def Lexer.peek (l : Lexer) : Char × Lexer :=
  let w := l.width
  let (r, l1) := l.scan
  (r, { l1.undo with width := w })

/-- `lastRune` decodes the last rune once more from the buffer
(`lexer.go` lastRune); decoding an empty suffix yields the replacement rune. -/
def Lexer.lastRune (l : Lexer) : Char := l.buffer.getD (l.pos - l.width) (Char.ofNat 0xFFFD)

/-- `emit` materializes the scanned token `buffer[start:pos]`, lowercases word
values when requested, and moves the start offset (`lexer.go` emit).  The send
on the output channel is modelled by returning the token. -/
def Lexer.emit (u : Uni) (l : Lexer) (cls : TokenClass) : Lexer × Token :=
  let value := (l.buffer.take l.pos).drop l.start
  let value := if lowersWords l.options ∧ cls = WordToken then value.map u.toLower else value
  ({ l with start := l.pos }, { Class := cls, Value := value })

/-- `probeEntity` replaces text representing a valid HTML entity, assuming the
lexer has just consumed the required ampersand: on success the buffer holds the
unescaped text in place of the entity string and the scanner is moved back just
before it; otherwise nothing happens (`lexer.go` probeEntity). -/
def Lexer.probeEntity (l : Lexer) : Lexer × Bool :=
  if unescapesEntities l.options then
    let candidate := l.buffer.drop (l.pos - l.width)
    match entityMatch candidate with
    | some idx1 =>
      let orig := candidate.take idx1
      let alt := htmlUnescape orig
      if alt ≠ orig then
        ({ l with buffer := l.buffer.take (l.pos - l.width) ++ alt ++ candidate.drop idx1,
                  pos := l.pos - l.width }, true)
      else (l, false)
    | none => (l, false)
  else (l, false)

/-- `acceptAll` consumes runes while they are in a set of valid runes
(`lexer.go` acceptAll), with fuel. -/
def Lexer.acceptAllF (l : Lexer) (valid : List Char) : Nat → Option Lexer
  | 0 => none
  | fuel + 1 =>
    let (r, l1) := l.scan
    if valid.contains r then l1.acceptAllF valid fuel else some l1.undo

/-- `acceptOn` consumes runes while they test positively, resolving an entity
after an ampersand and testing the rune the substitution produced
(`lexer.go` acceptOn), with fuel. -/
def Lexer.acceptOnF (l : Lexer) (test : Char → Bool) : Nat → Option Lexer
  | 0 => none
  | fuel + 1 =>
    let (tok, l1) := l.scan
    let next :=
      if tok = '&' then
        match l1.probeEntity with
        | (l2, true) => l2.scan
        | (l2, false) => (tok, l2)
      else (tok, l1)
    if test next.1 then next.2.acceptOnF test fuel else some next.2.undo

/-! ## The state functions, from `lexer.go` (`lexText`, `lexEnd`, `lexWord`,
`lexNumber`, `lexSymbol`)

Each state function below returns the lexer together with the tokens it
emitted, in emission order; `none` means the fuel ran out (sufficiency is
proved later).  The `glog` diagnostics of `lexEnd` have no effect on the
emitted tokens and are dropped. -/

/-- `lexWord` consumes and produces a word (`lexer.go` lexWord), with fuel. -/
def lexWordF (u : Uni) : Nat → Lexer → Option (Lexer × Token)
  | 0, _ => none
  | fuel + 1, l =>
    let (r, l1) := l.scan
    if r = '-' ∨ r = '.' ∨ r = '_' then
      let (p, l2) := l1.peek
      if u.isLetterOrDigit p then lexWordF u fuel l2
      else if p = '&' ∧ unescapesEntities l2.options then
        let off := l2.pos - l2.width
        let l3 := (l2.scan).2
        match l3.probeEntity with
        | (l4, true) =>
          let (p2, l5) := l4.peek
          if u.isLetterOrDigit p2 then lexWordF u fuel l5
          else some (Lexer.emit u { l5 with pos := off, width := 0 } WordToken)
        | (l4, false) => some (Lexer.emit u { l4 with pos := off, width := 0 } WordToken)
      else some (l2.undo.emit u WordToken)
    else if r = '&' then
      match l1.probeEntity with
      | (l2, true) => lexWordF u fuel l2
      | (l2, false) => some (l2.undo.emit u WordToken)
    else if u.isLetterOrDigit r = false then
      some (l1.undo.emit u WordToken)
    else
      match expandsGreek l1.options, greekLetter r with
      | true, some name =>
        lexWordF u fuel
          { l1 with buffer := l1.buffer.take (l1.pos - l1.width) ++ name ++ l1.buffer.drop l1.pos,
                    pos := l1.pos + name.length - l1.width }
      | _, _ => lexWordF u fuel l1

/-- `lexNumber` consumes and produces a number (`lexer.go` lexNumber), with
fuel; the two fallbacks transfer to `lexWordF` without resetting the token
start. -/
def lexNumberF (u : Uni) : Nat → Lexer → Option (Lexer × Token)
  | 0, _ => none
  | fuel + 1, l =>
    match l.acceptOnF u.isDigit (fuel + 1) with
    | none => none
    | some la =>
      let (r, l1) := la.scan
      if r = ',' then
        let (p, l2) := l1.peek
        if u.isDigit p then lexNumberF u fuel l2
        else some (l2.undo.emit u NumberToken)
      else if r = '.' then
        let (p, l2) := l1.peek
        if u.isDigit p then
          match l2.acceptOnF u.isDigit (fuel + 1) with
          | none => none
          | some lb =>
            let (p2, l3) := lb.peek
            if p2 = '.' then lexWordF u (fuel + 1) l3
            else some (l3.emit u NumberToken)
        else some (l2.undo.emit u NumberToken)
      else if u.isLetter r then lexWordF u (fuel + 1) l1.undo
      else some (l1.undo.emit u NumberToken)

/-- `lexSymbol` consumes and produces a symbol, unless an entity probe after an
ampersand succeeds, in which case nothing is emitted and scanning resumes on
the substituted text (`lexer.go` lexSymbol).  With the Quotes option a doubled
single quote is merged into one double quote, and a modifier apostrophe is
replaced by the ASCII apostrophe. -/
def lexSymbol (u : Uni) (l0 : Lexer) : Lexer × Option Token :=
  let r := l0.lastRune
  let probe := if r = '&' then l0.probeEntity else (l0, false)
  if probe.2 then (probe.1, none)
  else
    let l1 := probe.1
    let l2 :=
      if normalizesQuotes l1.options ∧ (normalQuote r).isSome then
        let (p, lp) := l1.peek
        if p = r then
          { lp with buffer := lp.buffer.take (lp.pos - lp.width) ++
              (normalQuote r).getD nulChar :: lp.buffer.drop (lp.pos + lp.width) }
        else lp
      else if normalizesQuotes l1.options ∧ r = '\u02BC' then
        { l1 with buffer := l1.buffer.take (l1.pos - l1.width) ++
            aposChar :: l1.buffer.drop l1.pos }
      else l1
    let et := l2.emit u SymbolToken
    (et.1, some et.2)

/-- `lexText` tokenizes any kind of text, dispatching on the scanned rune's
category, and `lexEnd` emits the End token once `scan` returns the rune `0`
(`lexer.go` lexText and lexEnd), with fuel.  The trampoline of `run` that
keeps calling the returned state function is folded into the recursion. -/
def lexTextF (u : Uni) : Nat → Lexer → Option (Lexer × List Token)
  | 0, _ => none
  | fuel + 1, l =>
    let (r, l1) := l.scan
    if r = nulChar then
      let et := l1.emit u EndToken
      some (et.1, [et.2])
    else if u.isLetter r then
      match lexWordF u (fuel + 1) l1.undo with
      | none => none
      | some (l2, t) =>
        match lexTextF u fuel l2 with
        | none => none
        | some (l3, ts) => some (l3, t :: ts)
    else if u.isDigit r then
      match lexNumberF u (fuel + 1) l1 with
      | none => none
      | some (l2, t) =>
        match lexTextF u fuel l2 with
        | none => none
        | some (l3, ts) => some (l3, t :: ts)
    else if isSpace r then
      match l1.acceptOnF isSpace (fuel + 1) with
      | none => none
      | some l2 =>
        if emitsSpaces l2.options then
          let et := l2.emit u SpaceToken
          match lexTextF u fuel et.1 with
          | none => none
          | some (l3, ts) => some (l3, et.2 :: ts)
        else lexTextF u fuel l2.ignore
    else if isEOL r then
      match l1.acceptAllF EOLMarkers (fuel + 1) with
      | none => none
      | some l2 =>
        if emitsLinebreaks l2.options then
          let et := l2.emit u LinebreakToken
          match lexTextF u fuel et.1 with
          | none => none
          | some (l3, ts) => some (l3, et.2 :: ts)
        else lexTextF u fuel l2.ignore
    else if u.isSymbol r then
      match lexSymbol u l1 with
      | (l2, none) => lexTextF u fuel l2
      | (l2, some t) =>
        match lexTextF u fuel l2 with
        | none => none
        | some (l3, ts) => some (l3, t :: ts)
    else lexTextF u fuel l1.ignore

/-- The scanner state at the start of an item, as reset by the `run` loop of
`lexer.go` (width, position and start offsets zeroed, buffer set to the item). -/
def initLexer (options : Nat) (item : List Char) : Lexer :=
  { buffer := item, start := 0, pos := 0, width := 0, options := options }

/-- Run the state machine on one item with the canonical fuel. -/
def runItem (u : Uni) (options : Nat) (item : List Char) : Option (Lexer × List Token) :=
  lexTextF u (item.length + 1) (initLexer options item)

/-- The token sequence the scanner emits for one input item. -/
def Tokens (u : Uni) (options : Nat) (item : List Char) : List Token :=
  (runItem u options item).elim [] Prod.snd

/-- The `run` loop of `lexer.go`: receive items, reset the scanner state
(width, pos, start and buffer are all overwritten while the options persist),
scan, and emit the tokens of every item in order. -/
def runStreamF (u : Uni) (options : Nat) : List (List Char) → Option (List Token)
  | [] => some []
  | item :: rest =>
    match lexTextF u (item.length + 1) (initLexer options item) with
    | none => none
    | some (_, ts) => (runStreamF u options rest).map (ts ++ ·)

/-! ## A concrete classifier instance

`goIsLetter`, `goIsDigit` and `goIsSymbolChar` model `unicode.IsLetter`,
`unicode.IsDigit` and the S/P/Nl/No category test of `lexer.go` `isSymbol` on
the code points exercised by the concrete inputs of this development: the
ASCII range, the modifier apostrophe U+02BC (category Lm, hence a letter), the
Greek letter block, and the punctuation blocks used by the quote and hyphen
tables.  Every value below agrees with the real Unicode tables on these
points.  `Char.toLower` of the Lean core library is precisely the action of
`strings.ToLower` on the basic latin letters and the identity elsewhere, which
matches `unicode.ToLower` on every code point exercised here. -/

def goIsLetter (c : Char) : Bool :=
  ('A' ≤ c && c ≤ 'Z') || ('a' ≤ c && c ≤ 'z') || c == '\u02BC' ||
  ('\u0391' ≤ c && c ≤ '\u03A9' && !(c == '\u03A2')) || ('\u03B1' ≤ c && c ≤ '\u03C9')

def goIsDigit (c : Char) : Bool := '0' ≤ c && c ≤ '9'

def goIsSymbolChar (c : Char) : Bool :=
  ('\x21' ≤ c && c ≤ '\x2F') || ('\x3A' ≤ c && c ≤ '\x40') ||
  ('\x5B' ≤ c && c ≤ '\x60') || ('\x7B' ≤ c && c ≤ '\x7E') ||
  ('\u2010' ≤ c && c ≤ '\u2015') || ('\u2018' ≤ c && c ≤ '\u201E') || c == '\u2212'

theorem toLower_conn_aux : ∀ c : Char, c ∉ connChars → Char.toLower c ∉ connChars := by
  intro c hc
  unfold Char.toLower
  simp only []
  split
  · next h =>
    have h1 : 97 ≤ c.toNat + 32 := by omega
    have h2 : c.toNat + 32 ≤ 122 := by omega
    generalize c.toNat + 32 = n at h1 h2
    interval_cases n <;> decide
  · exact hc

/-- The concrete classifier bundle. -/
def goUni : Uni where
  isLetter := goIsLetter
  isDigit := goIsDigit
  isSymbol := goIsSymbolChar
  toLower := Char.toLower
  isLetter_nul := by decide
  isDigit_nul := by decide
  isSymbol_nul := by decide
  isLetter_conn := by decide
  isDigit_conn := by decide
  isLetter_amp := by decide
  isDigit_amp := by decide
  isLetter_hyphens := by decide
  isDigit_hyphens := by decide
  toLower_conn := toLower_conn_aux

/-- The shape the specification asserts of Word token values: non-empty and
neither starting nor ending with a connector character. -/
def wordOk (v : List Char) : Bool :=
  !v.isEmpty && !connChars.contains (v.headD nulChar) &&
    !connChars.contains (v.getLastD nulChar)

/-- A code point which the Text state classifies into one of the five
productive runs (letter, digit, space, linebreak, symbol) rather than
discarding it: the domain on which the round-trip law holds. -/
def classifiable (u : Uni) (c : Char) : Bool :=
  u.isLetter c || u.isDigit c || isSpace c || isEOL c || u.isSymbol c


/-! ## List helpers -/

theorem takeWhile_append_stop (p : Char → Bool) (y : Char) (h : p y = false) :
    ∀ xs ys ys2 : List Char,
      (xs ++ y :: ys).takeWhile p = (xs ++ y :: ys2).takeWhile p := by
  intro xs
  induction xs with
  | nil => intro ys ys2; simp [List.takeWhile_cons, h]
  | cons a as ih =>
    intro ys ys2
    simp only [List.cons_append, List.takeWhile_cons]
    rw [ih ys ys2]

theorem slice_length (b : List Char) (s e : Nat) (he : e ≤ b.length) :
    ((b.take e).drop s).length = e - s := by
  simp [Nat.min_eq_left he]

theorem slice_ne_nil (b : List Char) (s e : Nat) (hse : s < e) (he : e ≤ b.length) :
    (b.take e).drop s ≠ [] := by
  have hl := slice_length b s e he
  intro hnil
  rw [hnil] at hl
  simp at hl
  omega

theorem slice_head? (b : List Char) (s e : Nat) (hse : s < e) :
    ((b.take e).drop s).head? = b[s]? := by
  rw [List.head?_drop, List.getElem?_take]
  simp [hse]

theorem slice_getLast? (b : List Char) (s e : Nat) (hse : s < e) (he : e ≤ b.length) :
    ((b.take e).drop s).getLast? = b[e - 1]? := by
  rw [List.getLast?_eq_getElem?, slice_length b s e he, List.getElem?_drop,
    List.getElem?_take]
  have h1 : s + (e - s - 1) = e - 1 := by omega
  have h2 : e - 1 < e := by omega
  simp [h1, h2]

theorem slice_split (b : List Char) (s m e : Nat) (h1 : s ≤ m) (h2 : m ≤ e) :
    (b.take m).drop s ++ (b.take e).drop m = (b.take e).drop s := by
  have hbm : b.take m = (b.take e).take m := by rw [List.take_take, Nat.min_eq_left h2]
  rw [hbm]
  generalize b.take e = c
  rw [List.drop_take]
  have hmd : List.drop m c = List.drop (m - s) (List.drop s c) := by
    rw [List.drop_drop]
    congr 1
    omega
  rw [hmd, List.take_append_drop]

/-! ## Primitive scanner lemmas -/

theorem scan_end (l : Lexer) (h : l.buffer.length ≤ l.pos) :
    l.scan = (nulChar, { l with width := 0 }) := by
  simp [Lexer.scan, h]

theorem scan_lt (l : Lexer) (h : l.pos < l.buffer.length) :
    ∃ r b, l.scan = (r, { l with buffer := b, width := 1, pos := l.pos + 1 }) ∧
      b.length = l.buffer.length ∧
      b.take l.pos = l.buffer.take l.pos ∧
      b.drop (l.pos + 1) = l.buffer.drop (l.pos + 1) ∧
      b[l.pos]? = some r ∧
      (b = l.buffer ∨ (r = '-' ∧ hyphens.contains (l.buffer.getD l.pos nulChar) = true)) ∧
      (r = '-' ∨ r ∈ l.buffer) ∧
      ¬ (mapsHyphens l.options = true ∧ hyphens.contains r = true) ∧
      (∀ c ∈ b, c = '-' ∨ c ∈ l.buffer) := by
  have hnot : ¬ l.buffer.length ≤ l.pos := by omega
  by_cases hsp : mapsHyphens l.options = true ∧ hyphens.contains (l.buffer.getD l.pos nulChar) = true
  · refine ⟨'-', l.buffer.take l.pos ++ '-' :: l.buffer.drop (l.pos + 1), ?_, ?_, ?_, ?_, ?_,
      Or.inr ⟨rfl, hsp.2⟩, Or.inl rfl, ?_, ?_⟩
    · simp only [Lexer.scan, hnot, if_false]
      rw [if_pos hsp]
    · simp
      omega
    · rw [List.take_append_of_le_length (by simp; omega), List.take_take]
      simp
    · rw [List.drop_append_eq_append_drop]
      have hlen : (l.buffer.take l.pos).length = l.pos := by simp; omega
      rw [hlen]
      simp
    · rw [List.getElem?_append_right (by simp)]
      have hlen : (l.buffer.take l.pos).length = l.pos := by simp; omega
      simp [hlen]
    · intro hcon
      exact absurd hcon.2 (by decide)
    · intro c hc
      rcases List.mem_append.1 hc with h1 | h2
      · exact Or.inr (List.mem_of_mem_take h1)
      · rcases List.mem_cons.1 h2 with h3 | h4
        · exact Or.inl h3
        · exact Or.inr (List.mem_of_mem_drop h4)
  · refine ⟨l.buffer.getD l.pos nulChar, l.buffer, ?_, rfl, rfl, rfl, ?_, Or.inl rfl,
      Or.inr ?_, hsp, fun c hc => Or.inr hc⟩
    · simp only [Lexer.scan, hnot, if_false]
      rw [if_neg hsp]
    · rw [List.getD_eq_getElem?_getD, List.getElem?_eq_getElem h]
      simp
    · rw [List.getD_eq_getElem?_getD, List.getElem?_eq_getElem h]
      exact List.getElem_mem h

theorem scan_width_irrel (l : Lexer) (w : Nat) :
    Lexer.scan { l with width := w } = Lexer.scan l := by
  simp only [Lexer.scan]

theorem peek_end (l : Lexer) (h : l.buffer.length ≤ l.pos) :
    l.peek = (nulChar, l) := by
  simp only [Lexer.peek, scan_end l h, Lexer.undo]
  simp

theorem peek_lt (l : Lexer) (h : l.pos < l.buffer.length) :
    ∃ p b, l.peek = (p, { l with buffer := b }) ∧
      b.length = l.buffer.length ∧
      b.take l.pos = l.buffer.take l.pos ∧
      b.drop (l.pos + 1) = l.buffer.drop (l.pos + 1) ∧
      b[l.pos]? = some p ∧
      (b = l.buffer ∨ (p = '-' ∧ hyphens.contains (l.buffer.getD l.pos nulChar) = true)) ∧
      (p = '-' ∨ p ∈ l.buffer) ∧
      (∀ c ∈ b, c = '-' ∨ c ∈ l.buffer) ∧
      Lexer.scan { l with buffer := b } =
        (p, { l with buffer := b, width := 1, pos := l.pos + 1 }) := by
  rcases scan_lt l h with ⟨r, b, hscan, hlen, htake, hdrop, hget, hid, hmem, hnosp, hsub⟩
  refine ⟨r, b, ?_, hlen, htake, hdrop, hget, hid, hmem, hsub, ?_⟩
  · simp only [Lexer.peek, hscan, Lexer.undo]
    simp
  · have hb : l.pos < b.length := by omega
    have hnot : ¬ b.length ≤ l.pos := by omega
    have hbg : b.getD l.pos nulChar = r := by
      rw [List.getD_eq_getElem?_getD, hget]
      rfl
    simp only [Lexer.scan, hnot, if_false, hbg]
    rw [if_neg hnosp]

/-! ## Emit, undo and table lemmas -/

theorem undo_spec (l : Lexer) : l.undo = { l with pos := l.pos - l.width, width := 0 } := rfl

theorem ignore_spec (l : Lexer) : l.ignore = { l with start := l.pos } := rfl

theorem emit_spec (u : Uni) (l : Lexer) (cls : TokenClass) :
    l.emit u cls =
      ({ l with start := l.pos },
       { Class := cls,
         Value := if lowersWords l.options ∧ cls = WordToken
           then ((l.buffer.take l.pos).drop l.start).map u.toLower
           else (l.buffer.take l.pos).drop l.start }) := rfl

theorem lookup_mem {α β : Type} [BEq α] [LawfulBEq α] (l : List (α × β)) (k : α) (v : β)
    (h : l.lookup k = some v) : (k, v) ∈ l := by
  induction l with
  | nil => simp [List.lookup] at h
  | cons p t ih =>
    rcases p with ⟨a, b⟩
    simp only [List.lookup] at h
    split at h
    · next heq =>
      have hk : k = a := eq_of_beq heq
      injection h with hv
      subst hk
      subst hv
      exact List.mem_cons_self _ _
    · exact List.mem_cons_of_mem _ (ih h)

theorem entityMatch_some {s : List Char} {m : Nat} (h : entityMatch s = some m) :
    3 ≤ m ∧ m ≤ s.length := by
  match s with
  | [] => simp [entityMatch] at h
  | c :: rest =>
    simp only [entityMatch] at h
    split at h
    · split at h
      · next hcond =>
        rcases hcond with ⟨hn, hsemi⟩
        injection h with h1
        have hlt : (rest.takeWhile isWordChar).length < rest.length := by
          by_contra hge
          push_neg at hge
          rw [List.getD_eq_getElem?_getD, List.getElem?_eq_none (by omega)] at hsemi
          exact absurd hsemi (by decide)
        constructor
        · omega
        · simp only [List.length_cons]
          omega
      · simp at h
    · simp at h

theorem htmlUnescape_changed {orig : List Char} (h : htmlUnescape orig ≠ orig) :
    (htmlUnescape orig).length = 1 ∧ nulChar ∉ htmlUnescape orig := by
  have htab : ∀ p ∈ entityTable, p.2.length = 1 ∧ nulChar ∉ p.2 := by decide
  unfold htmlUnescape at h ⊢
  split
  · next hcond =>
    rw [if_pos hcond] at h
    rcases hlk : entityTable.lookup (orig.drop 1).dropLast with _ | alt
    · simp only [List.drop_one] at h hlk
      rw [hlk] at h
      simp at h
    · simpa using htab _ (lookup_mem _ _ _ hlk)
  · next hcond =>
    rw [if_neg hcond] at h
    simp at h

theorem greekLetter_some {r : Char} {name : List Char} (h : greekLetter r = some name) :
    name ≠ [] ∧ connChars.contains (name.headD nulChar) = false ∧
      connChars.contains (name.getLastD nulChar) = false ∧ nulChar ∉ name := by
  have htab : ∀ p ∈ greekTable, p.2 ≠ [] ∧ connChars.contains (p.2.headD nulChar) = false ∧
      connChars.contains (p.2.getLastD nulChar) = false ∧ nulChar ∉ p.2 := by decide
  exact htab _ (lookup_mem _ _ _ h)

/-! ## Entity probe lemmas -/

theorem probeEntity_false_eq (l : Lexer) (h : l.probeEntity.2 = false) : l.probeEntity.1 = l := by
  unfold Lexer.probeEntity at h ⊢
  by_cases he : unescapesEntities l.options
  · simp only [he, if_true] at h ⊢
    rcases hm : entityMatch (l.buffer.drop (l.pos - l.width)) with _ | m
    · simp [hm]
    · simp only [hm] at h ⊢
      by_cases ha : htmlUnescape ((l.buffer.drop (l.pos - l.width)).take m) =
          (l.buffer.drop (l.pos - l.width)).take m
      · simp [ha]
      · simp [ha] at h
  · simp [he]

theorem probeEntity_true {l l2 : Lexer} (h : l.probeEntity = (l2, true)) :
    ∃ m alt, 3 ≤ m ∧ m ≤ l.buffer.length - (l.pos - l.width) ∧
      alt.length = 1 ∧ nulChar ∉ alt ∧
      entityMatch (l.buffer.drop (l.pos - l.width)) = some m ∧
      alt = htmlUnescape ((l.buffer.drop (l.pos - l.width)).take m) ∧
      l2 = { l with
        buffer := l.buffer.take (l.pos - l.width) ++ alt ++ l.buffer.drop (l.pos - l.width + m),
        pos := l.pos - l.width } ∧
      unescapesEntities l.options = true := by
  unfold Lexer.probeEntity at h
  by_cases he : unescapesEntities l.options
  · simp only [he, if_true] at h
    rcases hm : entityMatch (l.buffer.drop (l.pos - l.width)) with _ | m
    · rw [hm] at h
      simp at h
    · rw [hm] at h
      simp only at h
      by_cases ha : htmlUnescape ((l.buffer.drop (l.pos - l.width)).take m) =
          (l.buffer.drop (l.pos - l.width)).take m
      · rw [if_neg (by simp [ha])] at h
        simp at h
      · rw [if_pos (by simp [ha])] at h
        rcases entityMatch_some hm with ⟨hm3, hmlen⟩
        rcases htmlUnescape_changed ha with ⟨halen, hanul⟩
        have hl2 : l2 = { l with
            buffer := l.buffer.take (l.pos - l.width) ++
              htmlUnescape ((l.buffer.drop (l.pos - l.width)).take m) ++
              (l.buffer.drop (l.pos - l.width)).drop m,
            pos := l.pos - l.width } := (congrArg Prod.fst h).symm
        refine ⟨m, htmlUnescape ((l.buffer.drop (l.pos - l.width)).take m), hm3, ?_, halen,
          hanul, rfl, rfl, ?_, he⟩
        · simp at hmlen
          omega
        · have hd : (l.buffer.drop (l.pos - l.width)).drop m =
              l.buffer.drop (l.pos - l.width + m) := by
            rw [List.drop_drop]
          rw [hl2, hd]
  · rw [if_neg he] at h
    simp at h

/-! ## Run-consumption masters: acceptAll and acceptOn

Each master proves fuel sufficiency together with the state facts the
state-function masters need: the start offset and options are untouched, the
cursor moves forward and stays in bounds, the consumed prefix of the buffer is
stable, the last accepted rune passed the test, and no splice introduces a
NUL. -/

theorem nulfree_step {b buf : List Char} (hsub : ∀ c ∈ b, c = '-' ∨ c ∈ buf)
    (hn : nulChar ∉ buf) : nulChar ∉ b := by
  intro hcon
  rcases hsub _ hcon with h1 | h2
  · exact absurd h1 (by decide)
  · exact hn h2

theorem take_prefix_mono {x y : List Char} {n m : Nat} (h : x.take n = y.take n) (hm : m ≤ n) :
    x.take m = y.take m := by
  rw [← Nat.min_eq_left hm, ← List.take_take, ← List.take_take (l := y), h]

theorem acceptAllF_master (valid : List Char) (hnul : valid.contains nulChar = false) :
    ∀ fuel (l : Lexer), l.remaining < fuel → l.pos ≤ l.buffer.length →
    ∃ l2, l.acceptAllF valid fuel = some l2 ∧
      l2.start = l.start ∧ l2.options = l.options ∧ l2.width = 0 ∧
      l.pos ≤ l2.pos ∧ l2.pos ≤ l2.buffer.length ∧
      l2.remaining ≤ l.remaining ∧
      l2.buffer.length = l.buffer.length ∧
      l2.buffer.take l.pos = l.buffer.take l.pos ∧
      (nulChar ∉ l.buffer → nulChar ∉ l2.buffer) := by
  intro fuel
  induction fuel with
  | zero => intro l hf hp; omega
  | succ fuel ih =>
    intro l hf hp
    by_cases hend : l.buffer.length ≤ l.pos
    · refine ⟨{ l with width := 0 }, ?_, rfl, rfl, rfl, le_refl _, hp, le_refl _, rfl, rfl,
        fun h => h⟩
      simp only [Lexer.acceptAllF, scan_end l hend, hnul]
      rw [undo_spec]
      simp
    · push_neg at hend
      rcases scan_lt l hend with ⟨r, b, hscan, hlen, htake, hdrop, hget, hid, hmem, hnosp, hsub⟩
      by_cases hv : valid.contains r
      · have hrm : ({ l with buffer := b, width := 1, pos := l.pos + 1 } : Lexer).remaining < fuel := by
          simp only [Lexer.remaining] at hf ⊢
          omega
        rcases ih { l with buffer := b, width := 1, pos := l.pos + 1 } hrm
          (show l.pos + 1 ≤ b.length by omega)
          with ⟨l2, hrun, hstart, hopt, hw, hpos, hpb, hrem, hblen, htk, hnf⟩
        have hpos2 : l.pos + 1 ≤ l2.pos := hpos
        have hrem2 : l2.remaining ≤ b.length - (l.pos + 1) := hrem
        have hblen2 : l2.buffer.length = b.length := hblen
        have htk2 : l2.buffer.take (l.pos + 1) = b.take (l.pos + 1) := htk
        refine ⟨l2, ?_, hstart, hopt, hw, by omega, hpb, ?_, ?_, ?_, ?_⟩
        · simp only [Lexer.acceptAllF, hscan, hv]
          exact hrun
        · simp only [Lexer.remaining] at hrem2 hf ⊢
          omega
        · omega
        · have h2 : l2.buffer.take l.pos = b.take l.pos :=
            take_prefix_mono htk2 (Nat.le_succ l.pos)
          rw [h2, htake]
        · intro hn
          exact hnf (nulfree_step hsub hn)
      · refine ⟨{ l with buffer := b, width := 0 }, ?_, rfl, rfl, rfl, le_refl _,
          show l.pos ≤ b.length by omega, ?_, show b.length = l.buffer.length from hlen,
          htake, fun hn => nulfree_step hsub hn⟩
        · simp only [Lexer.acceptAllF, hscan, hv]
          rw [undo_spec]
          simp
        · simp only [Lexer.remaining]
          omega

theorem getD_of_take_eq {x y : List Char} {n m : Nat} (h : x.take n = y.take n) (hm : m < n)
    (d : Char) : x.getD m d = y.getD m d := by
  rw [List.getD_eq_getElem?_getD, List.getD_eq_getElem?_getD]
  have h2 := congrArg (fun t => t[m]?) h
  simp only [List.getElem?_take, hm, if_pos] at h2
  rw [h2]

theorem nulfree_splice {buf alt : List Char} {a b : Nat} (hn : nulChar ∉ buf)
    (ha : nulChar ∉ alt) : nulChar ∉ buf.take a ++ alt ++ buf.drop b := by
  intro hcon
  rcases List.mem_append.1 hcon with h1 | h2
  · rcases List.mem_append.1 h1 with h3 | h4
    · exact hn (List.mem_of_mem_take h3)
    · exact ha h4
  · exact hn (List.mem_of_mem_drop h2)

theorem acceptOnF_master (test : Char → Bool) (hnultest : test nulChar = false) :
    ∀ fuel (l : Lexer), l.remaining < fuel → l.pos ≤ l.buffer.length →
    ∃ l2, l.acceptOnF test fuel = some l2 ∧
      l2.start = l.start ∧ l2.options = l.options ∧ l2.width = 0 ∧
      l.pos ≤ l2.pos ∧ l2.pos ≤ l2.buffer.length ∧
      l2.remaining ≤ l.remaining ∧
      l2.buffer.length ≤ l.buffer.length ∧
      l2.buffer.take l.pos = l.buffer.take l.pos ∧
      (l.pos < l2.pos → test (l2.buffer.getD (l2.pos - 1) nulChar) = true) ∧
      (nulChar ∉ l.buffer → nulChar ∉ l2.buffer) := by
  intro fuel
  induction fuel with
  | zero => intro l hf hp; omega
  | succ fuel ih =>
    intro l hf hp
    by_cases hend : l.buffer.length ≤ l.pos
    · refine ⟨{ l with width := 0 }, ?_, rfl, rfl, rfl, le_refl _, hp, le_refl _, le_refl _, rfl,
        fun h => absurd (show l.pos < l.pos from h) (Nat.lt_irrefl _), fun h => h⟩
      simp only [Lexer.acceptOnF, scan_end l hend]
      rw [if_neg (show ¬ (nulChar = '&') from by decide)]
      simp [hnultest, undo_spec]
    · push_neg at hend
      rcases scan_lt l hend with ⟨r, b, hscan, hlen, htake, hdrop, hget, hid, hmem, hnosp, hsub⟩
      by_cases hamp : r = '&'
      · subst hamp
        have hbb : b = l.buffer := by
          rcases hid with h1 | h2
          · exact h1
          · exact absurd h2.1 (by decide)
        subst hbb
        rcases hpe : (Lexer.probeEntity ({ buffer := l.buffer, start := l.start, pos := l.pos + 1, width := 1, options := l.options } : Lexer)) with ⟨lp, pb⟩
        rcases pb with _ | _
        · have hlp : lp = ({ buffer := l.buffer, start := l.start, pos := l.pos + 1, width := 1, options := l.options } : Lexer) := by
            have h0 := probeEntity_false_eq ({ buffer := l.buffer, start := l.start, pos := l.pos + 1, width := 1, options := l.options } : Lexer) (by rw [hpe])
            rw [hpe] at h0
            exact h0
          subst hlp
          rcases ht : test '&' with _ | _
          · refine ⟨{ l with width := 0 }, ?_, rfl, rfl, rfl, le_refl _, hp, le_refl _, le_refl _,
              rfl, fun h => absurd (show l.pos < l.pos from h) (Nat.lt_irrefl _), fun h => h⟩
            simp only [Lexer.acceptOnF, hscan, hpe]
            simp [ht, undo_spec]
          · have hrm : (({ buffer := l.buffer, start := l.start, pos := l.pos + 1, width := 1, options := l.options } : Lexer)).remaining < fuel := by
              simp only [Lexer.remaining] at hf ⊢
              omega
            rcases ih _ hrm (show l.pos + 1 ≤ l.buffer.length by omega) with
              ⟨l2, hrun, hstart, hopt, hw, hpos, hpb, hrem, hblen, htk, hlast, hnf⟩
            have hpos2 : l.pos + 1 ≤ l2.pos := hpos
            have hrem2 : l2.remaining ≤ l.buffer.length - (l.pos + 1) := hrem
            have hblen2 : l2.buffer.length ≤ l.buffer.length := hblen
            have htk2 : l2.buffer.take (l.pos + 1) = l.buffer.take (l.pos + 1) := htk
            refine ⟨l2, ?_, hstart, hopt, hw, by omega, hpb, ?_, hblen2, ?_, ?_, hnf⟩
            · simp only [Lexer.acceptOnF, hscan, hpe]
              simp only [if_true, ht, if_pos]
              exact hrun
            · simp only [Lexer.remaining] at hrem2 hf ⊢
              omega
            · exact take_prefix_mono htk2 (Nat.le_succ l.pos)
            · intro hgt
              rcases Nat.lt_or_ge (l.pos + 1) l2.pos with hc | hc
              · exact hlast hc
              · have hpeq : l2.pos = l.pos + 1 := by omega
                rw [hpeq, Nat.add_sub_cancel, getD_of_take_eq htk2 (by omega)]
                have hgd : l.buffer.getD l.pos nulChar = '&' := by
                  rw [List.getD_eq_getElem?_getD, hget]
                  rfl
                rw [hgd]
                exact ht
        · rcases probeEntity_true hpe with ⟨m, alt, hm3, hmle, halen, hanul, hmat, halt, hlp, hue⟩
          simp only [] at hmle hmat halt hlp
          simp only [Nat.add_sub_cancel] at hmle hmat halt hlp
          have hmle2 : m ≤ l.buffer.length - l.pos := hmle
          have hlpbuf : lp.buffer = l.buffer.take l.pos ++ alt ++ l.buffer.drop (l.pos + m) := by
            rw [hlp]
          have hlppos : lp.pos = l.pos := by rw [hlp]
          have hlpw : lp.width = 1 := by rw [hlp]
          have hlpstart : lp.start = l.start := by rw [hlp]
          have hlpopt : lp.options = l.options := by rw [hlp]
          have hlplen : lp.buffer.length + m = l.buffer.length + 1 := by
            rw [hlpbuf]
            simp
            omega
          have hlptake : lp.buffer.take l.pos = l.buffer.take l.pos := by
            rw [hlpbuf, List.append_assoc, List.take_append_of_le_length (by simp; omega),
              List.take_take]
            simp
          have hlpposlt : lp.pos < lp.buffer.length := by omega
          have hlpnf : nulChar ∉ l.buffer → nulChar ∉ lp.buffer := by
            intro hn
            rw [hlpbuf]
            exact nulfree_splice hn hanul
          rcases scan_lt lp hlpposlt with ⟨r2, b2, hscan2, hlen2, htake2, hdrop2, hget2, hid2,
            hmem2, hnosp2, hsub2⟩
          rcases ht2 : test r2 with _ | _
          · refine ⟨{ lp with buffer := b2, width := 0 }, ?_, hlpstart, hlpopt, rfl,
              show l.pos ≤ lp.pos from by omega, show lp.pos ≤ b2.length from by omega, ?_,
              show b2.length ≤ l.buffer.length from by omega, ?_,
              fun h => absurd (show l.pos < lp.pos from h) (by omega), ?_⟩
            · simp only [Lexer.acceptOnF, hscan, hpe, hscan2]
              simp only [if_true, ht2, Bool.false_eq_true, if_false]
              rw [undo_spec]
              have hps : lp.pos + 1 - 1 = lp.pos := by omega
              simp [hps]
            · show b2.length - lp.pos ≤ l.remaining
              simp only [Lexer.remaining]
              omega
            · show b2.take l.pos = l.buffer.take l.pos
              rw [← hlppos, htake2, hlppos, hlptake]
            · intro hn
              exact nulfree_step hsub2 (hlpnf hn)
          · have hrm : ({ lp with buffer := b2, width := 1, pos := lp.pos + 1 } : Lexer).remaining
                < fuel := by
              simp only [Lexer.remaining] at hf ⊢
              omega
            rcases ih { lp with buffer := b2, width := 1, pos := lp.pos + 1 } hrm
              (show lp.pos + 1 ≤ b2.length by omega) with
              ⟨l2, hrun, hstart, hopt, hw, hpos, hpb, hrem, hblen, htk, hlast, hnf⟩
            have hpos2 : lp.pos + 1 ≤ l2.pos := hpos
            have hrem2 : l2.remaining ≤ b2.length - (lp.pos + 1) := hrem
            have hblen2 : l2.buffer.length ≤ b2.length := hblen
            have htk2 : l2.buffer.take (lp.pos + 1) = b2.take (lp.pos + 1) := htk
            refine ⟨l2, ?_, hstart.trans hlpstart, hopt.trans hlpopt, hw, by omega, hpb, ?_, ?_,
              ?_, ?_, ?_⟩
            · simp only [Lexer.acceptOnF, hscan, hpe, hscan2]
              simp only [if_true, ht2, if_pos]
              exact hrun
            · simp only [Lexer.remaining] at hrem2 hf ⊢
              omega
            · omega
            · have h2 : l2.buffer.take l.pos = b2.take l.pos :=
                take_prefix_mono htk2 (by omega)
              rw [h2]
              have h3 : b2.take l.pos = lp.buffer.take l.pos := by
                rw [← hlppos]
                exact take_prefix_mono (show b2.take lp.pos = lp.buffer.take lp.pos from htake2)
                  (le_refl _)
              rw [h3, hlptake]
            · intro hgt
              rcases Nat.lt_or_ge (lp.pos + 1) l2.pos with hc | hc
              · exact hlast hc
              · have hpeq : l2.pos = lp.pos + 1 := by omega
                rw [hpeq, Nat.add_sub_cancel, getD_of_take_eq htk2 (by omega)]
                have hgd : b2.getD lp.pos nulChar = r2 := by
                  rw [List.getD_eq_getElem?_getD, hget2]
                  rfl
                rw [hgd]
                exact ht2
            · intro hn
              exact hnf (nulfree_step hsub2 (hlpnf hn))
      · rcases ht : test r with _ | _
        · refine ⟨{ l with buffer := b, width := 0 }, ?_, rfl, rfl, rfl, le_refl _,
            show l.pos ≤ b.length by omega, ?_, show b.length ≤ l.buffer.length by omega, htake,
            fun h => absurd (show l.pos < l.pos from h) (Nat.lt_irrefl _),
            fun hn => nulfree_step hsub hn⟩
          · simp only [Lexer.acceptOnF, hscan]
            rw [if_neg hamp]
            simp only [ht, Bool.false_eq_true, if_false]
            rw [undo_spec]
            simp
          · show b.length - l.pos ≤ l.remaining
            simp only [Lexer.remaining]
            omega
        · have hrm : ({ l with buffer := b, width := 1, pos := l.pos + 1 } : Lexer).remaining
              < fuel := by
            simp only [Lexer.remaining] at hf ⊢
            omega
          rcases ih { l with buffer := b, width := 1, pos := l.pos + 1 } hrm
            (show l.pos + 1 ≤ b.length by omega) with
            ⟨l2, hrun, hstart, hopt, hw, hpos, hpb, hrem, hblen, htk, hlast, hnf⟩
          have hpos2 : l.pos + 1 ≤ l2.pos := hpos
          have hrem2 : l2.remaining ≤ b.length - (l.pos + 1) := hrem
          have hblen2 : l2.buffer.length ≤ b.length := hblen
          have htk2 : l2.buffer.take (l.pos + 1) = b.take (l.pos + 1) := htk
          refine ⟨l2, ?_, hstart, hopt, hw, by omega, hpb, ?_, by omega, ?_, ?_, ?_⟩
          · simp only [Lexer.acceptOnF, hscan]
            rw [if_neg hamp]
            simp only [ht, if_pos]
            exact hrun
          · simp only [Lexer.remaining] at hrem2 hf ⊢
            omega
          · have h2 : l2.buffer.take l.pos = b.take l.pos :=
              take_prefix_mono htk2 (Nat.le_succ l.pos)
            rw [h2, htake]
          · intro hgt
            rcases Nat.lt_or_ge (l.pos + 1) l2.pos with hc | hc
            · exact hlast hc
            · have hpeq : l2.pos = l.pos + 1 := by omega
              rw [hpeq, Nat.add_sub_cancel, getD_of_take_eq htk2 (by omega)]
              have hgd : b.getD l.pos nulChar = r := by
                rw [List.getD_eq_getElem?_getD, hget]
                rfl
              rw [hgd]
              exact ht
          · intro hn
            exact hnf (nulfree_step hsub hn)

/-- One accepting step of `acceptOn`: when the rune under the cursor passes the
test and triggers neither the ampersand probe nor the hyphen mapping, the loop
consumes it and continues with the rest of its fuel. -/
theorem acceptOnF_step (test : Char → Bool) (fuel : Nat) (l : Lexer)
    (h : l.pos < l.buffer.length)
    (hc : test (l.buffer.getD l.pos nulChar) = true)
    (hamp : ¬ (l.buffer.getD l.pos nulChar = '&'))
    (hhy : hyphens.contains (l.buffer.getD l.pos nulChar) = false) :
    l.acceptOnF test (fuel + 1) =
      Lexer.acceptOnF { l with width := 1, pos := l.pos + 1 } test fuel := by
  rcases scan_lt l h with ⟨r, b, hscan, hlen, htake, hdrop, hget, hid, hmem, hnosp, hsub⟩
  have hbb : b = l.buffer := by
    rcases hid with h1 | ⟨hdash, hcon⟩
    · exact h1
    · rw [hhy] at hcon
      exact absurd hcon (by decide)
  subst hbb
  have hrv : l.buffer.getD l.pos nulChar = r := by
    rw [List.getD_eq_getElem?_getD, hget]
    rfl
  have hramp : ¬ (r = '&') := hrv ▸ hamp
  have hrt : test r = true := hrv ▸ hc
  simp only [Lexer.acceptOnF, hscan]
  rw [if_neg hramp]
  simp only [hrt, if_pos]

/-! ## Word-shape helpers -/

theorem headD_map (f : Char → Char) {v : List Char} (hv : v ≠ []) (d : Char) :
    (v.map f).headD d = f (v.headD d) := by
  cases v with
  | nil => exact absurd rfl hv
  | cons a t => simp

theorem getLastD_map (f : Char → Char) {v : List Char} (hv : v ≠ []) (d : Char) :
    (v.map f).getLastD d = f (v.getLastD d) := by
  rw [List.getLastD_eq_getLast?, List.getLastD_eq_getLast?, List.getLast?_map]
  rcases hv2 : v.getLast? with _ | c
  · rw [List.getLast?_eq_none_iff] at hv2
    exact absurd hv2 hv
  · simp

theorem getD_eq_of_getElem? {b : List Char} {i : Nat} {c d : Char} (h : b[i]? = some c) :
    b.getD i d = c := by
  rw [List.getD_eq_getElem?_getD, h]
  rfl

theorem wordOk_slice (u : Uni) {b : List Char} {s e : Nat} (hse : s < e) (he : e ≤ b.length)
    (hh : connChars.contains (b.getD s nulChar) = false)
    (hl : connChars.contains (b.getD (e - 1) nulChar) = false) :
    wordOk ((b.take e).drop s) = true ∧ wordOk (((b.take e).drop s).map u.toLower) = true := by
  have hs' : s < b.length := lt_of_lt_of_le hse he
  have hne := slice_ne_nil b s e hse he
  have hhd : ((b.take e).drop s).headD nulChar = b.getD s nulChar := by
    rw [List.headD_eq_head?, slice_head? b s e hse, ← List.getD_eq_getElem?_getD]
  have hld : ((b.take e).drop s).getLastD nulChar = b.getD (e - 1) nulChar := by
    rw [List.getLastD_eq_getLast?, slice_getLast? b s e hse he, ← List.getD_eq_getElem?_getD]
  constructor
  · unfold wordOk
    rw [hhd, hld, hh, hl]
    simp [hne]
  · unfold wordOk
    have hmne : ((b.take e).drop s).map u.toLower ≠ [] := by simpa using hne
    have h1 := headD_map u.toLower hne nulChar
    have h2 := getLastD_map u.toLower hne nulChar
    rw [h1, h2, hhd, hld]
    have hc1 : connChars.contains (u.toLower (b.getD s nulChar)) = false := by
      have := u.toLower_conn (b.getD s nulChar) (by simpa using hh)
      simpa using this
    have hc2 : connChars.contains (u.toLower (b.getD (e - 1) nulChar)) = false := by
      have := u.toLower_conn (b.getD (e - 1) nulChar) (by simpa using hl)
      simpa using this
    rw [hc1, hc2]
    simp [hmne, hse, hs']

theorem getD_append_name {x alt y : List Char} (ha : alt ≠ []) (d : Char) :
    (x ++ alt ++ y).getD (x.length + alt.length - 1) d = alt.getLastD d := by
  have h1 : 1 ≤ alt.length := by
    cases alt with
    | nil => exact absurd rfl ha
    | cons _ _ => simp
  rw [List.getD_eq_getElem?_getD, List.append_assoc,
    List.getElem?_append_right (by omega)]
  have h2 : x.length + alt.length - 1 - x.length = alt.length - 1 := by omega
  rw [h2, List.getElem?_append_left (by omega), ← List.getLast?_eq_getElem?,
    List.getLastD_eq_getLast?]

/-- Packs the conclusions of an emitted Word token. -/
theorem emit_word_pack (u : Uni) (X : Lexer) (hsp : X.start < X.pos)
    (hpl : X.pos ≤ X.buffer.length)
    (hh : connChars.contains (X.buffer.getD X.start nulChar) = false)
    (hl : connChars.contains (X.buffer.getD (X.pos - 1) nulChar) = false) :
    (X.emit u WordToken).2.Class = WordToken ∧ wordOk (X.emit u WordToken).2.Value = true ∧
      (X.emit u WordToken).1.start = (X.emit u WordToken).1.pos ∧
      (X.emit u WordToken).1.pos ≤ (X.emit u WordToken).1.buffer.length ∧
      (X.emit u WordToken).1.options = X.options ∧
      (X.emit u WordToken).1.remaining = X.remaining ∧
      (X.emit u WordToken).1.buffer = X.buffer := by
  rw [emit_spec]
  rcases wordOk_slice u hsp hpl hh hl with ⟨hok1, hok2⟩
  refine ⟨rfl, ?_, rfl, hpl, rfl, rfl, rfl⟩
  by_cases hlow : lowersWords X.options ∧ WordToken = WordToken
  · rw [if_pos hlow]
    exact hok2
  · rw [if_neg hlow]
    exact hok1

/-- Packs the conclusions of an emitted Number token. -/
theorem emit_number_pack (u : Uni) (X : Lexer) (hsp : X.start < X.pos)
    (hpl : X.pos ≤ X.buffer.length) :
    (X.emit u NumberToken).2.Class = NumberToken ∧ (X.emit u NumberToken).2.Value ≠ [] ∧
      (X.emit u NumberToken).1.start = (X.emit u NumberToken).1.pos ∧
      (X.emit u NumberToken).1.pos ≤ (X.emit u NumberToken).1.buffer.length ∧
      (X.emit u NumberToken).1.options = X.options ∧
      (X.emit u NumberToken).1.remaining = X.remaining ∧
      (X.emit u NumberToken).1.buffer = X.buffer := by
  rw [emit_spec]
  refine ⟨rfl, ?_, rfl, hpl, rfl, rfl, rfl⟩
  rw [if_neg (show ¬ (lowersWords X.options = true ∧ NumberToken = WordToken) from
    fun hcon => absurd hcon.2 (by decide))]
  exact slice_ne_nil X.buffer X.start X.pos hsp hpl

/-- A well-formed word value is never empty. -/
theorem wordOk_ne_nil {v : List Char} (h : wordOk v = true) : v ≠ [] := by
  intro hnil
  rw [hnil] at h
  exact absurd h (by decide)

/-- Packs the conclusions of an emitted Symbol token. -/
theorem emit_symbol_pack (u : Uni) (X : Lexer) (hpl : X.pos ≤ X.buffer.length) :
    (X.emit u SymbolToken).2.Class = SymbolToken ∧
      (X.emit u SymbolToken).2.Value = (X.buffer.take X.pos).drop X.start ∧
      (X.emit u SymbolToken).1.start = (X.emit u SymbolToken).1.pos ∧
      (X.emit u SymbolToken).1.pos ≤ (X.emit u SymbolToken).1.buffer.length ∧
      (X.emit u SymbolToken).1.options = X.options ∧
      (X.emit u SymbolToken).1.remaining = X.remaining ∧
      (X.emit u SymbolToken).1.buffer = X.buffer := by
  rw [emit_spec]
  refine ⟨rfl, ?_, rfl, hpl, rfl, rfl, rfl⟩
  rw [if_neg (show ¬ (lowersWords X.options = true ∧ SymbolToken = WordToken) from
    fun hcon => absurd hcon.2 (by decide))]

/-- The quote table only produces quotes, never the buffer sentinel. -/
theorem normalQuote_ne_nul {r q : Char} (h : normalQuote r = some q) : ¬ (q = nulChar) := by
  unfold normalQuote at h
  split at h
  · rw [Option.some_inj] at h
    subst h
    decide
  · split at h
    · rw [Option.some_inj] at h
      subst h
      decide
    · split at h
      · rw [Option.some_inj] at h
        subst h
        decide
      · split at h
        · rw [Option.some_inj] at h
          subst h
          decide
        · exact Option.noConfusion h

/-- The one-rune slice a splice produces. -/
theorem slice_splice {A B : List Char} (q : Char) {s e : Nat} (hA : A.length = s)
    (he : e = s + 1) : ((A ++ q :: B).take e).drop s = [q] := by
  subst hA
  subst he
  rw [List.take_append]
  simp

theorem nulfree_splice_cons {buf : List Char} {q : Char} {a b : Nat} (hn : nulChar ∉ buf)
    (hq : ¬ (q = nulChar)) : nulChar ∉ buf.take a ++ q :: buf.drop b := by
  intro hcon
  rcases List.mem_append.1 hcon with h1 | h2
  · exact hn (List.mem_of_mem_take h1)
  · rcases List.mem_cons.1 h2 with h3 | h4
    · exact hq h3.symm
    · exact hn (List.mem_of_mem_drop h4)

/-! ## Variable-form wrappers for the scanner primitives -/

theorem getD_oob {b : List Char} {i : Nat} (h : b.length ≤ i) (d : Char) : b.getD i d = d := by
  rw [List.getD_eq_getElem?_getD, List.getElem?_eq_none h]
  rfl

theorem uni_alnum_nul (u : Uni) : u.isLetterOrDigit nulChar = false := by
  simp [Uni.isLetterOrDigit, u.isLetter_nul, u.isDigit_nul]

theorem uni_alnum_amp (u : Uni) : u.isLetterOrDigit '&' = false := by
  simp [Uni.isLetterOrDigit, u.isLetter_amp, u.isDigit_amp]

theorem uni_alnum_conn (u : Uni) {c : Char} (h : c ∈ connChars) :
    u.isLetterOrDigit c = false := by
  simp [Uni.isLetterOrDigit, u.isLetter_conn c h, u.isDigit_conn c h]

theorem uni_alnum_not_conn (u : Uni) {c : Char} (h : u.isLetterOrDigit c = true) :
    connChars.contains c = false := by
  by_contra hc
  have hc2 : c ∈ connChars := by
    rcases hb : connChars.contains c with _ | _
    · exact absurd hb hc
    · simpa using hb
  rw [uni_alnum_conn u hc2] at h
  exact absurd h (by decide)

theorem uni_alnum_hyphen (u : Uni) {c : Char} (h : hyphens.contains c = true) :
    u.isLetterOrDigit c = false := by
  have hc2 : c ∈ hyphens := by simpa using h
  simp [Uni.isLetterOrDigit, u.isLetter_hyphens c hc2, u.isDigit_hyphens c hc2]

theorem scan_lt2 (l : Lexer) (h : l.pos < l.buffer.length) :
    ∃ r l1, l.scan = (r, l1) ∧ l1.start = l.start ∧ l1.options = l.options ∧ l1.width = 1 ∧
      l1.pos = l.pos + 1 ∧ l1.buffer.length = l.buffer.length ∧
      l1.buffer.take l.pos = l.buffer.take l.pos ∧
      l1.buffer.drop (l.pos + 1) = l.buffer.drop (l.pos + 1) ∧
      l1.buffer[l.pos]? = some r ∧
      (l1.buffer = l.buffer ∨ (r = '-' ∧ hyphens.contains (l.buffer.getD l.pos nulChar) = true)) ∧
      (r = '-' ∨ r ∈ l.buffer) ∧
      ¬ (mapsHyphens l.options = true ∧ hyphens.contains r = true) ∧
      (∀ c ∈ l1.buffer, c = '-' ∨ c ∈ l.buffer) := by
  rcases scan_lt l h with ⟨r, b, hscan, hlen, htake, hdrop, hget, hid, hmem, hnosp, hsub⟩
  exact ⟨r, _, hscan, rfl, rfl, rfl, rfl, hlen, htake, hdrop, hget, hid, hmem, hnosp, hsub⟩

theorem peek_lt2 (l : Lexer) (h : l.pos < l.buffer.length) :
    ∃ p lp, l.peek = (p, lp) ∧ lp.start = l.start ∧ lp.pos = l.pos ∧ lp.width = l.width ∧
      lp.options = l.options ∧ lp.buffer.length = l.buffer.length ∧
      lp.buffer.take l.pos = l.buffer.take l.pos ∧
      lp.buffer.drop (l.pos + 1) = l.buffer.drop (l.pos + 1) ∧
      lp.buffer[l.pos]? = some p ∧
      (lp.buffer = l.buffer ∨ (p = '-' ∧ hyphens.contains (l.buffer.getD l.pos nulChar) = true)) ∧
      (p = '-' ∨ p ∈ l.buffer) ∧
      (∀ c ∈ lp.buffer, c = '-' ∨ c ∈ l.buffer) ∧
      Lexer.scan lp = (p, { lp with width := 1, pos := l.pos + 1 }) := by
  rcases peek_lt l h with ⟨p, b, hpeek, hlen, htake, hdrop, hget, hid, hmem, hsub, hafter⟩
  exact ⟨p, _, hpeek, rfl, rfl, rfl, rfl, hlen, htake, hdrop, hget, hid, hmem, hsub, hafter⟩

theorem probeEntity_true2 {l l2 : Lexer} (h : l.probeEntity = (l2, true)) (hw : l.width = 1) :
    ∃ m alt, 3 ≤ m ∧ m ≤ l.buffer.length - (l.pos - 1) ∧ alt.length = 1 ∧ nulChar ∉ alt ∧
      l2.start = l.start ∧ l2.width = 1 ∧ l2.options = l.options ∧ l2.pos = l.pos - 1 ∧
      l2.buffer = l.buffer.take (l.pos - 1) ++ alt ++ l.buffer.drop (l.pos - 1 + m) ∧
      l2.buffer.length + m = l.buffer.length + 1 ∧
      l2.buffer.take (l.pos - 1) = l.buffer.take (l.pos - 1) ∧
      (nulChar ∉ l.buffer → nulChar ∉ l2.buffer) ∧
      entityMatch (l.buffer.drop (l.pos - 1)) = some m := by
  rcases probeEntity_true h with ⟨m, alt, hm3, hmle, halen, hanul, hmat, halt, hl2, hue⟩
  rw [hw] at hmle hmat hl2
  have hple : l.pos - 1 < l.buffer.length := by omega
  have hbuf : l2.buffer = l.buffer.take (l.pos - 1) ++ alt ++ l.buffer.drop (l.pos - 1 + m) := by
    rw [hl2]
  have htkl : (l.buffer.take (l.pos - 1)).length = l.pos - 1 := by
    simp
    omega
  have hlen2 : l2.buffer.length + m = l.buffer.length + 1 := by
    rw [hbuf]
    simp
    omega
  refine ⟨m, alt, hm3, hmle, halen, hanul, by rw [hl2], by rw [hl2], by rw [hl2], by rw [hl2],
    hbuf, hlen2, ?_, ?_, hmat⟩
  · rw [hbuf, List.take_append_of_le_length (by simp; omega),
      List.take_append_of_le_length (by simp; omega), List.take_take]
    simp
  · intro hn
    rw [hbuf]
    exact nulfree_splice hn hanul

theorem take_stable_getD {x y : List Char} {n i : Nat} (h : x.take n = y.take n) (hi : i < n)
    (d : Char) : x.getD i d = y.getD i d := getD_of_take_eq h hi d

/-! ## The lexWord master: fuel sufficiency and the Word-token shape

The invariant carried through the accumulation loop of `lexWord`: the start
offset sits strictly before the cursor, the pending span starts with a
non-connector, and whenever the pending span ends with a connector the very
next code point in the buffer is alphanumeric (that is exactly the situation
after the connector look-ahead retained the connector). -/

theorem lexWordF_master (u : Uni) :
    ∀ fuel (l : Lexer), l.remaining < fuel →
    l.start < l.pos → l.pos ≤ l.buffer.length →
    connChars.contains (l.buffer.getD l.start nulChar) = false →
    (connChars.contains (l.buffer.getD (l.pos - 1) nulChar) = true →
      u.isLetterOrDigit (l.buffer.getD l.pos nulChar) = true) →
    ∃ l2 t, lexWordF u fuel l = some (l2, t) ∧
      t.Class = WordToken ∧ wordOk t.Value = true ∧
      l2.start = l2.pos ∧ l2.pos ≤ l2.buffer.length ∧
      l2.options = l.options ∧ l2.remaining ≤ l.remaining ∧
      (nulChar ∉ l.buffer → nulChar ∉ l2.buffer) := by
  intro fuel
  induction fuel with
  | zero => intro l hf hsp hpl hh hinv; omega
  | succ fuel ih =>
    intro l hf hsp hpl hh hinv
    have hpos1le : 1 ≤ l.pos := by omega
    by_cases hend : l.buffer.length ≤ l.pos
    · -- at the end of the buffer: scan the sentinel, undo, emit
      have hlast : connChars.contains (l.buffer.getD (l.pos - 1) nulChar) = false := by
        rcases hcl : connChars.contains (l.buffer.getD (l.pos - 1) nulChar) with _ | _
        · rfl
        · exfalso
          have halnum := hinv hcl
          rw [getD_oob hend, uni_alnum_nul u] at halnum
          exact absurd halnum (by decide)
      have hem := emit_word_pack u { l with width := 0 } hsp hpl hh hlast
      refine ⟨_, _, ?_, hem.1, hem.2.1, hem.2.2.1, hem.2.2.2.1, hem.2.2.2.2.1,
        le_of_eq hem.2.2.2.2.2.1, ?_⟩
      · simp only [lexWordF, scan_end l hend]
        rw [if_neg (show ¬ (nulChar = '-' ∨ nulChar = '.' ∨ nulChar = '_') from by decide),
          if_neg (show ¬ (nulChar = '&') from by decide), if_pos (uni_alnum_nul u)]
        rw [undo_spec]
        simp
      · intro hn
        rw [hem.2.2.2.2.2.2]
        exact hn
    · push_neg at hend
      rcases scan_lt2 l hend with ⟨r, l1, hscan, hstart1, hopt1, hw1, hpos1, hlen1, htake1,
        hdrop1, hget1, hid1, hmem1, hnosp1, hsub1⟩
      have hh1 : connChars.contains (l1.buffer.getD l.start nulChar) = false := by
        rw [take_stable_getD htake1 hsp]
        exact hh
      have hprev1 : l1.buffer.getD (l.pos - 1) nulChar = l.buffer.getD (l.pos - 1) nulChar :=
        take_stable_getD htake1 (by omega) nulChar
      by_cases hconn : r = '-' ∨ r = '.' ∨ r = '_'
      · -- connector case
        have hrconn : r ∈ connChars := by
          rcases hconn with h | h | h <;> simp [connChars, h]
        have hlast : connChars.contains (l.buffer.getD (l.pos - 1) nulChar) = false := by
          rcases hcl : connChars.contains (l.buffer.getD (l.pos - 1) nulChar) with _ | _
          · rfl
          · exfalso
            have halnum := hinv hcl
            rcases hid1 with hids | ⟨hdash, hhyp⟩
            · rw [getD_eq_of_getElem? (hids ▸ hget1)] at halnum
              rw [uni_alnum_conn u hrconn] at halnum
              exact absurd halnum (by decide)
            · rw [uni_alnum_hyphen u hhyp] at halnum
              exact absurd halnum (by decide)
        have hlast1 : connChars.contains (l1.buffer.getD (l.pos - 1) nulChar) = false := by
          rw [hprev1]
          exact hlast
        by_cases hpend : l1.buffer.length ≤ l1.pos
        · -- nothing to peek: p is the sentinel; undo drops the connector, emit
          have hpeek := peek_end l1 hpend
          have hX : Lexer.undo l1 = { l1 with pos := l.pos, width := 0 } := by
            rw [undo_spec, hpos1, hw1, Nat.add_sub_cancel]
          have hem := emit_word_pack u { l1 with pos := l.pos, width := 0 }
            (show l1.start < l.pos from by rw [hstart1]; exact hsp)
            (show l.pos ≤ l1.buffer.length from by omega)
            (show connChars.contains (l1.buffer.getD l1.start nulChar) = false from by
              rw [hstart1]; exact hh1)
            hlast1
          refine ⟨_, _, ?_, hem.1, hem.2.1, hem.2.2.1, hem.2.2.2.1, ?_, ?_, ?_⟩
          · simp only [lexWordF, hscan]
            rw [if_pos hconn, hpeek]
            rw [if_neg (show ¬ (u.isLetterOrDigit nulChar = true) from by
              rw [uni_alnum_nul u]; decide)]
            rw [if_neg (show ¬ (nulChar = '&' ∧ unescapesEntities l1.options = true) from by
              intro hcon; exact absurd hcon.1 (by decide))]
            rw [hX]
          · rw [hem.2.2.2.2.1, hopt1]
          · rw [hem.2.2.2.2.2.1]
            show l1.buffer.length - l.pos ≤ l.remaining
            simp only [Lexer.remaining]
            omega
          · intro hn
            rw [hem.2.2.2.2.2.2]
            exact nulfree_step hsub1 hn
        · push_neg at hpend
          rcases peek_lt2 l1 hpend with ⟨p, lp, hpeek, hstartp, hposp, hwp, hoptp, hlenp,
            htakep, hdropp, hgetp, hidp, hmemp, hsubp, hafterp⟩
          have htakep0 : lp.buffer.take l.pos = l.buffer.take l.pos := by
            have h1 : lp.buffer.take l.pos = l1.buffer.take l.pos :=
              take_prefix_mono htakep (show l.pos ≤ l1.pos from by omega)
            rw [h1, htake1]
          have hhp : connChars.contains (lp.buffer.getD l.start nulChar) = false := by
            rw [take_stable_getD htakep0 hsp]
            exact hh
          have hlastp : connChars.contains (lp.buffer.getD (l.pos - 1) nulChar) = false := by
            rw [take_stable_getD htakep0 (by omega)]
            exact hlast
          have hrp : lp.buffer.getD l.pos nulChar = r := by
            rw [take_stable_getD htakep (show l.pos < l1.pos from by omega) nulChar,
              getD_eq_of_getElem? hget1]
          have hgp : lp.buffer.getD l1.pos nulChar = p := getD_eq_of_getElem? hgetp
          by_cases halp : u.isLetterOrDigit p = true
          · -- the connector is retained: the next code point is alphanumeric
            have hflp : lp.remaining < fuel := by
              simp only [Lexer.remaining] at hf ⊢
              rw [hlenp, hposp, hpos1, hlen1]
              omega
            have hsplp : lp.start < lp.pos := by
              rw [hstartp, hstart1, hposp, hpos1]
              omega
            have hpllp : lp.pos ≤ lp.buffer.length := by
              rw [hposp, hlenp]
              omega
            have hhlp : connChars.contains (lp.buffer.getD lp.start nulChar) = false := by
              rw [hstartp, hstart1]
              exact take_stable_getD htakep0 hsp nulChar ▸ hh
            have hinvlp : connChars.contains (lp.buffer.getD (lp.pos - 1) nulChar) = true →
                u.isLetterOrDigit (lp.buffer.getD lp.pos nulChar) = true := by
              intro _
              rw [hposp, hgp]
              exact halp
            rcases ih lp hflp hsplp hpllp hhlp hinvlp with
              ⟨l3, t, hrun, ht1, ht2, ht3, ht4, ht5, ht6, ht7⟩
            refine ⟨l3, t, ?_, ht1, ht2, ht3, ht4, ?_, ?_, ?_⟩
            · simp only [lexWordF, hscan]
              rw [if_pos hconn, hpeek, if_pos halp]
              exact hrun
            · rw [ht5, hoptp, hopt1]
            · simp only [Lexer.remaining] at ht6 ⊢
              rw [hlenp, hposp, hpos1, hlen1] at ht6
              omega
            · intro hn
              exact ht7 (nulfree_step hsubp (nulfree_step hsub1 hn))
          · -- the look-ahead is not alphanumeric
            have hsplp : lp.start < l.pos := by
              rw [hstartp, hstart1]
              exact hsp
            have hpllp : l.pos ≤ lp.buffer.length := by
              rw [hlenp, hlen1]
              omega
            have hhlp2 : connChars.contains (lp.buffer.getD lp.start nulChar) = false := by
              rw [hstartp, hstart1]
              exact take_stable_getD htakep0 hsp nulChar ▸ hh
            by_cases hpe2 : p = '&' ∧ unescapesEntities lp.options = true
            · -- an ampersand follows the connector: probe for an entity
              rcases hpe2 with ⟨hpamp, hue⟩
              subst hpamp
              have hoff : lp.pos - lp.width = l.pos := by
                rw [hposp, hwp, hpos1, hw1]
                omega
              rcases hpe : (Lexer.probeEntity { lp with width := 1, pos := l1.pos + 1 }) with
                ⟨l4, pb⟩
              rcases pb with _ | _
              · -- probe failed: rewind to before the connector and emit
                have hl4 : l4 = { lp with width := 1, pos := l1.pos + 1 } := by
                  have h0 := probeEntity_false_eq { lp with width := 1, pos := l1.pos + 1 }
                    (by rw [hpe])
                  rw [hpe] at h0
                  exact h0
                subst hl4
                have hem := emit_word_pack u { lp with pos := l.pos, width := 0 } hsplp hpllp
                  hhlp2 hlastp
                refine ⟨_, _, ?_, hem.1, hem.2.1, hem.2.2.1, hem.2.2.2.1, ?_, ?_, ?_⟩
                · simp only [lexWordF, hscan, hpeek, hafterp, hpe, hconn, halp, hue, hoff]
                  simp
                · rw [hem.2.2.2.2.1, hoptp, hopt1]
                · rw [hem.2.2.2.2.2.1]
                  show lp.buffer.length - l.pos ≤ l.remaining
                  simp only [Lexer.remaining]
                  rw [hlenp, hlen1]
                · intro hn
                  rw [hem.2.2.2.2.2.2]
                  exact nulfree_step hsubp (nulfree_step hsub1 hn)
              · -- probe succeeded
                rcases probeEntity_true2 hpe rfl with ⟨m, alt, hm3, hmle, halen, hanul, hst4,
                  hw4, hopt4, hp4, hbuf4, hlen4, htk4, hnf4, hmat4⟩
                have hp4x : l4.pos = l1.pos := hp4
                have hst4x : l4.start = lp.start := hst4
                have hopt4x : l4.options = lp.options := hopt4
                have hmlex : m ≤ lp.buffer.length - l1.pos := hmle
                have hlen4x : l4.buffer.length + m = lp.buffer.length + 1 := hlen4
                have htk4x : l4.buffer.take l1.pos = lp.buffer.take l1.pos := htk4
                have hnf4x : nulChar ∉ lp.buffer → nulChar ∉ l4.buffer := hnf4
                have hmb : l1.pos + m ≤ lp.buffer.length := by
                  have : 0 < lp.buffer.length - l1.pos := by omega
                  omega
                have hpos4lt : l4.pos < l4.buffer.length := by
                  rw [hp4x]
                  omega
                rcases peek_lt2 l4 hpos4lt with ⟨p2, l5, hpeek2, hstart5, hpos5, hw5, hopt5,
                  hlen5, htake5, hdrop5, hget5, hid5, hmem5, hsub5, hafter5⟩
                have hstart5x : l5.start = l.start := by
                  rw [hstart5, hst4x, hstartp, hstart1]
                have hpos5x : l5.pos = l.pos + 1 := by
                  rw [hpos5, hp4x, hpos1]
                have htake50 : l5.buffer.take l.pos = l.buffer.take l.pos := by
                  have h1 : l5.buffer.take l.pos = l4.buffer.take l.pos :=
                    take_prefix_mono htake5 (by omega)
                  have h2 : l4.buffer.take l.pos = lp.buffer.take l.pos :=
                    take_prefix_mono htk4x (by omega)
                  rw [h1, h2, htakep0]
                have hh5 : connChars.contains (l5.buffer.getD l.start nulChar) = false := by
                  rw [take_stable_getD htake50 hsp]
                  exact hh
                have hlast5 : connChars.contains (l5.buffer.getD (l.pos - 1) nulChar) = false := by
                  rw [take_stable_getD htake50 (by omega)]
                  exact hlast
                have hr5 : l5.buffer.getD l.pos nulChar = r := by
                  have h1 := take_stable_getD htake5 (show l.pos < l4.pos from by omega) nulChar
                  have h2 := take_stable_getD htk4x (show l.pos < l1.pos from by omega) nulChar
                  rw [h1, h2, hrp]
                have hg5 : l5.buffer.getD l4.pos nulChar = p2 := getD_eq_of_getElem? hget5
                by_cases halp2 : u.isLetterOrDigit p2 = true
                · -- entity resolved to a letter or digit: keep accumulating
                  have hf5 : l5.remaining < fuel := by
                    simp only [Lexer.remaining] at hf ⊢
                    rw [hlen5, hpos5x]
                    rw [hlenp, hlen1] at hlen4x
                    omega
                  have hsp5 : l5.start < l5.pos := by
                    rw [hstart5x, hpos5x]
                    omega
                  have hpl5 : l5.pos ≤ l5.buffer.length := by
                    rw [hpos5, hlen5]
                    omega
                  have hh5s : connChars.contains (l5.buffer.getD l5.start nulChar) = false := by
                    rw [hstart5x]
                    exact hh5
                  have hinv5 : connChars.contains (l5.buffer.getD (l5.pos - 1) nulChar) = true →
                      u.isLetterOrDigit (l5.buffer.getD l5.pos nulChar) = true := by
                    intro _
                    rw [hpos5, hg5]
                    exact halp2
                  rcases ih l5 hf5 hsp5 hpl5 hh5s hinv5 with
                    ⟨l3, t, hrun, ht1, ht2, ht3, ht4, ht5, ht6, ht7⟩
                  refine ⟨l3, t, ?_, ht1, ht2, ht3, ht4, ?_, ?_, ?_⟩
                  · simp only [lexWordF, hscan, hpeek, hafterp, hpe, hpeek2, hconn, halp,
                      hue, halp2]
                    simp only [if_true, if_false, and_true, true_and, eq_self_iff_true,
                      not_true, Bool.false_eq_true, ite_true, ite_false]
                    exact hrun
                  · rw [ht5, hopt5, hopt4x, hoptp, hopt1]
                  · simp only [Lexer.remaining] at ht6 hf ⊢
                    rw [hlen5, hpos5x] at ht6
                    rw [hlenp, hlen1] at hlen4x
                    omega
                  · intro hn
                    exact ht7 (nulfree_step hsub5 (hnf4x (nulfree_step hsubp
                      (nulfree_step hsub1 hn))))
                · -- entity did not resolve to word content: rewind before the connector
                  have hpl5e : l.pos ≤ l5.buffer.length := by
                    rw [hlen5]
                    omega
                  have hh5e : connChars.contains (l5.buffer.getD l5.start nulChar) = false := by
                    rw [hstart5x]
                    exact hh5
                  have hem := emit_word_pack u { l5 with pos := l.pos, width := 0 }
                    (show l5.start < l.pos from by rw [hstart5x]; exact hsp) hpl5e hh5e hlast5
                  refine ⟨_, _, ?_, hem.1, hem.2.1, hem.2.2.1, hem.2.2.2.1, ?_, ?_, ?_⟩
                  · simp only [lexWordF, hscan, hpeek, hafterp, hpe, hpeek2, hconn, halp,
                      hue, halp2, hoff]
                    simp
                  · rw [hem.2.2.2.2.1, hopt5, hopt4x, hoptp, hopt1]
                  · rw [hem.2.2.2.2.2.1]
                    show l5.buffer.length - l.pos ≤ l.remaining
                    simp only [Lexer.remaining]
                    rw [hlen5]
                    rw [hlenp, hlen1] at hlen4x
                    omega
                  · intro hn
                    rw [hem.2.2.2.2.2.2]
                    exact nulfree_step hsub5 (hnf4x (nulfree_step hsubp
                      (nulfree_step hsub1 hn)))
            · -- no entity look-ahead: drop the connector and emit
              have hXeq : Lexer.undo lp = { lp with pos := l.pos, width := 0 } := by
                rw [undo_spec, hposp, hwp, hpos1, hw1, Nat.add_sub_cancel]
              have hem := emit_word_pack u { lp with pos := l.pos, width := 0 } hsplp hpllp
                hhlp2 hlastp
              refine ⟨_, _, ?_, hem.1, hem.2.1, hem.2.2.1, hem.2.2.2.1, ?_, ?_, ?_⟩
              · simp only [lexWordF, hscan, hpeek, hconn, halp, hpe2, hXeq]
                simp
              · rw [hem.2.2.2.2.1, hoptp, hopt1]
              · rw [hem.2.2.2.2.2.1]
                show lp.buffer.length - l.pos ≤ l.remaining
                simp only [Lexer.remaining]
                rw [hlenp, hlen1]
              · intro hn
                rw [hem.2.2.2.2.2.2]
                exact nulfree_step hsubp (nulfree_step hsub1 hn)
      · -- the scanned rune is not a connector
        have hbe : l1.buffer = l.buffer := by
          rcases hid1 with h | ⟨hdash, _⟩
          · exact h
          · exact absurd (Or.inl hdash) hconn
        have hrl : l.buffer.getD l.pos nulChar = r :=
          getD_eq_of_getElem? (hbe ▸ hget1)
        by_cases hamp : r = '&'
        · -- an ampersand: probe for an entity
          subst hamp
          have hlast : connChars.contains (l.buffer.getD (l.pos - 1) nulChar) = false := by
            rcases hcl : connChars.contains (l.buffer.getD (l.pos - 1) nulChar) with _ | _
            · rfl
            · exfalso
              have halnum := hinv hcl
              rw [hrl, uni_alnum_amp u] at halnum
              exact absurd halnum (by decide)
          have hlast1 : connChars.contains (l1.buffer.getD (l.pos - 1) nulChar) = false := by
            rw [hprev1]
            exact hlast
          rcases hpe : l1.probeEntity with ⟨l2, pb⟩
          rcases pb with _ | _
          · -- probe failed: undo the ampersand and emit the pending word
            have hl2eq : l2 = l1 := by
              have h0 := probeEntity_false_eq l1 (by rw [hpe])
              rw [hpe] at h0
              exact h0
            have hpe1 : l1.probeEntity = (l1, false) := by
              rw [hpe, hl2eq]
            have hX : Lexer.undo l1 = { l1 with pos := l.pos, width := 0 } := by
              rw [undo_spec, hpos1, hw1, Nat.add_sub_cancel]
            have hem := emit_word_pack u { l1 with pos := l.pos, width := 0 }
              (show l1.start < l.pos from by rw [hstart1]; exact hsp)
              (show l.pos ≤ l1.buffer.length from by omega)
              (show connChars.contains (l1.buffer.getD l1.start nulChar) = false from by
                rw [hstart1]; exact hh1)
              hlast1
            refine ⟨_, _, ?_, hem.1, hem.2.1, hem.2.2.1, hem.2.2.2.1, ?_, ?_, ?_⟩
            · simp only [lexWordF, hscan, hpe1, hX]
              simp
            · rw [hem.2.2.2.2.1, hopt1]
            · rw [hem.2.2.2.2.2.1]
              show l1.buffer.length - l.pos ≤ l.remaining
              simp only [Lexer.remaining]
              rw [hlen1]
            · intro hn
              rw [hem.2.2.2.2.2.2]
              exact nulfree_step hsub1 hn
          · -- probe succeeded: scanning resumes on the substituted text
            rcases probeEntity_true2 hpe hw1 with ⟨m, alt, hm3, hmle, halen, hanul, hst2,
              hw2, hopt2, hp2, hbuf2, hlen2, htk2, hnf2, hmat2⟩
            rw [hlen1] at hlen2
            have hmlex := hmle
            rw [hpos1, Nat.add_sub_cancel, hlen1] at hmlex
            have hp2x : l2.pos = l.pos := by
              rw [hp2, hpos1]
              omega
            have htk2x : l2.buffer.take l.pos = l.buffer.take l.pos := by
              have h1 := htk2
              rw [hpos1, Nat.add_sub_cancel] at h1
              rw [h1, htake1]
            have hf2 : l2.remaining < fuel := by
              simp only [Lexer.remaining] at hf ⊢
              rw [hp2x]
              omega
            have hsp2 : l2.start < l2.pos := by
              rw [hst2, hstart1, hp2x]
              exact hsp
            have hpl2 : l2.pos ≤ l2.buffer.length := by
              rw [hp2x]
              omega
            have hh2 : connChars.contains (l2.buffer.getD l2.start nulChar) = false := by
              rw [hst2, hstart1, take_stable_getD htk2x hsp nulChar]
              exact hh
            have hinv2 : connChars.contains (l2.buffer.getD (l2.pos - 1) nulChar) = true →
                u.isLetterOrDigit (l2.buffer.getD l2.pos nulChar) = true := by
              intro hcl
              rw [hp2x, take_stable_getD htk2x (by omega) nulChar, hlast] at hcl
              exact absurd hcl (by decide)
            rcases ih l2 hf2 hsp2 hpl2 hh2 hinv2 with
              ⟨l3, t, hrun, ht1, ht2, ht3, ht4, ht5, ht6, ht7⟩
            refine ⟨l3, t, ?_, ht1, ht2, ht3, ht4, ?_, ?_, ?_⟩
            · simp only [lexWordF, hscan, hpe]
              simp
              exact hrun
            · rw [ht5, hopt2, hopt1]
            · simp only [Lexer.remaining] at ht6 ⊢
              rw [hp2x] at ht6
              omega
            · intro hn
              exact ht7 (hnf2 (nulfree_step hsub1 hn))
        · -- not an ampersand: emit on a non-alphanumeric, else accumulate
          rcases hal : u.isLetterOrDigit r with _ | _
          · -- not word material: undo the rune and emit the pending word
            have hlast1 : connChars.contains (l1.buffer.getD (l.pos - 1) nulChar) = false := by
              rw [hprev1]
              rcases hcl : connChars.contains (l.buffer.getD (l.pos - 1) nulChar) with _ | _
              · rfl
              · exfalso
                have h2 := hinv hcl
                rw [hrl, hal] at h2
                exact absurd h2 (by decide)
            have hX : Lexer.undo l1 = { l1 with pos := l.pos, width := 0 } := by
              rw [undo_spec, hpos1, hw1, Nat.add_sub_cancel]
            have hem := emit_word_pack u { l1 with pos := l.pos, width := 0 }
              (show l1.start < l.pos from by rw [hstart1]; exact hsp)
              (show l.pos ≤ l1.buffer.length from by omega)
              (show connChars.contains (l1.buffer.getD l1.start nulChar) = false from by
                rw [hstart1]; exact hh1)
              hlast1
            refine ⟨_, _, ?_, hem.1, hem.2.1, hem.2.2.1, hem.2.2.2.1, ?_, ?_, ?_⟩
            · simp only [lexWordF, hscan, hconn, hamp, hal, hX]
              simp
            · rw [hem.2.2.2.2.1, hopt1]
            · rw [hem.2.2.2.2.2.1]
              show l1.buffer.length - l.pos ≤ l.remaining
              simp only [Lexer.remaining]
              rw [hlen1]
            · intro hn
              rw [hem.2.2.2.2.2.2]
              exact nulfree_step hsub1 hn
          · -- alphanumeric: accumulate, expanding a Greek name when configured
            have hf1 : l1.remaining < fuel := by
              simp only [Lexer.remaining] at hf ⊢
              rw [hpos1, hlen1]
              omega
            have hsp1 : l1.start < l1.pos := by
              rw [hstart1, hpos1]
              omega
            have hpl1 : l1.pos ≤ l1.buffer.length := by
              rw [hpos1, hlen1]
              omega
            have hh1s : connChars.contains (l1.buffer.getD l1.start nulChar) = false := by
              rw [hstart1]
              exact hh1
            have hinv1 : connChars.contains (l1.buffer.getD (l1.pos - 1) nulChar) = true →
                u.isLetterOrDigit (l1.buffer.getD l1.pos nulChar) = true := by
              intro hcl
              rw [hpos1, Nat.add_sub_cancel, getD_eq_of_getElem? hget1,
                uni_alnum_not_conn u hal] at hcl
              exact absurd hcl (by decide)
            rcases hgk : expandsGreek l1.options with _ | _
            · -- no Greek expansion configured: keep scanning
              rcases ih l1 hf1 hsp1 hpl1 hh1s hinv1 with
                ⟨l3, t, hrun, ht1, ht2, ht3, ht4, ht5, ht6, ht7⟩
              refine ⟨l3, t, ?_, ht1, ht2, ht3, ht4, ?_, ?_, ?_⟩
              · simp only [lexWordF, hscan, hconn, hamp, hal, hgk]
                simp
                exact hrun
              · rw [ht5, hopt1]
              · simp only [Lexer.remaining] at ht6 ⊢
                rw [hpos1, hlen1] at ht6
                omega
              · intro hn
                exact ht7 (nulfree_step hsub1 hn)
            · rcases hgl : greekLetter r with _ | name
              · -- not a Greek letter: keep scanning
                rcases ih l1 hf1 hsp1 hpl1 hh1s hinv1 with
                  ⟨l3, t, hrun, ht1, ht2, ht3, ht4, ht5, ht6, ht7⟩
                refine ⟨l3, t, ?_, ht1, ht2, ht3, ht4, ?_, ?_, ?_⟩
                · simp only [lexWordF, hscan, hconn, hamp, hal, hgk, hgl]
                  simp
                  exact hrun
                · rw [ht5, hopt1]
                · simp only [Lexer.remaining] at ht6 ⊢
                  rw [hpos1, hlen1] at ht6
                  omega
                · intro hn
                  exact ht7 (nulfree_step hsub1 hn)
              · -- a Greek letter with expansion on: splice the spelled-out name
                rcases greekLetter_some hgl with ⟨hne, hghead, hglast, hgnul⟩
                have hname1 : 1 ≤ name.length := by
                  cases name with
                  | nil => exact absurd rfl hne
                  | cons _ _ => simp
                have hlentk : (l.buffer.take l.pos).length = l.pos := by
                  simp only [List.length_take]
                  omega
                have hbufg : l1.buffer.take (l1.pos - l1.width) ++ name ++ l1.buffer.drop l1.pos
                    = l.buffer.take l.pos ++ name ++ l.buffer.drop (l.pos + 1) := by
                  rw [hpos1, hw1, Nat.add_sub_cancel, htake1, hdrop1]
                have hposg : l1.pos + name.length - l1.width = l.pos + name.length := by
                  rw [hpos1, hw1]
                  omega
                have htkg : (l.buffer.take l.pos ++ name ++ l.buffer.drop (l.pos + 1)).take l.pos
                    = l.buffer.take l.pos := by
                  rw [List.append_assoc, List.take_append_of_le_length (by simp [hlentk]),
                    List.take_take]
                  simp
                have hhg : connChars.contains ((l.buffer.take l.pos ++ name ++
                    l.buffer.drop (l.pos + 1)).getD l1.start nulChar) = false := by
                  rw [hstart1, take_stable_getD htkg hsp nulChar]
                  exact hh
                have hinvg : connChars.contains ((l.buffer.take l.pos ++ name ++
                    l.buffer.drop (l.pos + 1)).getD (l.pos + name.length - 1) nulChar) = true →
                    u.isLetterOrDigit ((l.buffer.take l.pos ++ name ++
                    l.buffer.drop (l.pos + 1)).getD (l.pos + name.length) nulChar) = true := by
                  intro hcl
                  rw [show l.pos + name.length - 1 =
                      (l.buffer.take l.pos).length + name.length - 1 from by rw [hlentk],
                    getD_append_name hne nulChar, hglast] at hcl
                  exact absurd hcl (by decide)
                have hflg : (l.buffer.take l.pos ++ name ++
                    l.buffer.drop (l.pos + 1)).length - (l.pos + name.length) < fuel := by
                  simp only [List.length_append, hlentk, List.length_drop]
                  simp only [Lexer.remaining] at hf
                  omega
                have hsplg : l1.start < l.pos + name.length := by
                  rw [hstart1]
                  omega
                have hpllg : l.pos + name.length ≤ (l.buffer.take l.pos ++ name ++
                    l.buffer.drop (l.pos + 1)).length := by
                  simp only [List.length_append, hlentk, List.length_drop]
                  omega
                rcases ih ({ l1 with buffer := l.buffer.take l.pos ++ name ++ l.buffer.drop (l.pos + 1), pos := l.pos + name.length }) hflg hsplg hpllg hhg hinvg with
                  ⟨l3, t, hrun, ht1, ht2, ht3, ht4, ht5, ht6, ht7⟩
                refine ⟨l3, t, ?_, ht1, ht2, ht3, ht4, ?_, ?_, ?_⟩
                · simp only [lexWordF, hscan, hconn, hamp, hal, hgk, hgl]
                  simp only [hbufg, hposg]
                  simpa using hrun
                · rw [ht5]
                  exact hopt1
                · simp only [Lexer.remaining] at ht6 ⊢
                  simp only [List.length_append, hlentk, List.length_drop] at ht6
                  omega
                · intro hn
                  exact ht7 (nulfree_splice hn hgnul)

/-! ## The lexNumber master: fuel sufficiency and the Number-token shape

The invariant: the start offset sits strictly before the cursor, the pending
span begins with a non-connector, and either the last pending code point is a
digit or the code point under the cursor is (the latter is the situation on
entry from `lexText` after re-entering through a thousands comma). -/

theorem lexNumberF_master (u : Uni) :
    ∀ fuel (l : Lexer), l.remaining < fuel →
    l.start < l.pos → l.pos ≤ l.buffer.length →
    connChars.contains (l.buffer.getD l.start nulChar) = false →
    (u.isDigit (l.buffer.getD (l.pos - 1) nulChar) = true ∨
      u.isDigit (l.buffer.getD l.pos nulChar) = true) →
    ∃ l2 t, lexNumberF u fuel l = some (l2, t) ∧
      (t.Class = NumberToken ∨ (t.Class = WordToken ∧ wordOk t.Value = true)) ∧
      t.Value ≠ [] ∧
      l2.start = l2.pos ∧ l2.pos ≤ l2.buffer.length ∧
      l2.options = l.options ∧ l2.remaining ≤ l.remaining ∧
      (nulChar ∉ l.buffer → nulChar ∉ l2.buffer) := by
  intro fuel
  induction fuel with
  | zero => intro l hf hsp hpl hh hinv; omega
  | succ fuel ih =>
    intro l hf hsp hpl hh hinv
    have hpos1le : 1 ≤ l.pos := by omega
    have hbundle : ∃ la, l.acceptOnF u.isDigit (fuel + 1) = some la ∧
        la.start = l.start ∧ la.options = l.options ∧ la.width = 0 ∧
        l.pos ≤ la.pos ∧ la.pos ≤ la.buffer.length ∧
        la.remaining ≤ l.remaining ∧ la.buffer.length ≤ l.buffer.length ∧
        la.buffer.take l.pos = l.buffer.take l.pos ∧
        u.isDigit (la.buffer.getD (la.pos - 1) nulChar) = true ∧
        (nulChar ∉ l.buffer → nulChar ∉ la.buffer) := by
      rcases hinv with hd1 | hd2
      · rcases acceptOnF_master u.isDigit u.isDigit_nul (fuel + 1) l hf hpl with
          ⟨la, hrun, hst, hopt, hwd, hpos, hpb, hrem, hblen, htk, hlastp, hnf⟩
        refine ⟨la, hrun, hst, hopt, hwd, hpos, hpb, hrem, hblen, htk, ?_, hnf⟩
        rcases Nat.lt_or_ge l.pos la.pos with hc | hc
        · exact hlastp hc
        · have hpeq : la.pos = l.pos := by omega
          rw [hpeq, take_stable_getD htk (by omega) nulChar]
          exact hd1
      · have hplt : l.pos < l.buffer.length := by
          by_contra hcon
          push_neg at hcon
          rw [getD_oob hcon, u.isDigit_nul] at hd2
          exact absurd hd2 (by decide)
        have hcamp : ¬ (l.buffer.getD l.pos nulChar = '&') := by
          intro hcon
          rw [hcon, u.isDigit_amp] at hd2
          exact absurd hd2 (by decide)
        have hchy : hyphens.contains (l.buffer.getD l.pos nulChar) = false := by
          rcases hcc : hyphens.contains (l.buffer.getD l.pos nulChar) with _ | _
          · rfl
          · have hmem2 : l.buffer.getD l.pos nulChar ∈ hyphens := by simpa using hcc
            rw [u.isDigit_hyphens _ hmem2] at hd2
            exact absurd hd2 (by decide)
        rw [acceptOnF_step u.isDigit fuel l hplt hd2 hcamp hchy]
        have hYf : ({ l with width := 1, pos := l.pos + 1 } : Lexer).remaining < fuel := by
          simp only [Lexer.remaining] at hf ⊢
          omega
        rcases acceptOnF_master u.isDigit u.isDigit_nul fuel ({ l with width := 1, pos := l.pos + 1 }) hYf (show l.pos + 1 ≤ l.buffer.length from by omega) with
          ⟨la, hrun, hst, hopt, hwd, hpos, hpb, hrem, hblen, htk, hlastp, hnf⟩
        have hposx : l.pos + 1 ≤ la.pos := hpos
        have hremx : la.remaining ≤ l.buffer.length - (l.pos + 1) := hrem
        have hblenx : la.buffer.length ≤ l.buffer.length := hblen
        have htkx : la.buffer.take (l.pos + 1) = l.buffer.take (l.pos + 1) := htk
        have hlastpx : l.pos + 1 < la.pos →
            u.isDigit (la.buffer.getD (la.pos - 1) nulChar) = true := hlastp
        refine ⟨la, hrun, hst, hopt, hwd, by omega, hpb, ?_, hblenx, ?_, ?_, hnf⟩
        · simp only [Lexer.remaining] at hremx ⊢
          omega
        · exact take_prefix_mono htkx (Nat.le_succ l.pos)
        · rcases Nat.lt_or_ge (l.pos + 1) la.pos with hc | hc
          · exact hlastpx hc
          · have hpeq : la.pos = l.pos + 1 := by omega
            rw [hpeq, Nat.add_sub_cancel, take_stable_getD htkx (by omega) nulChar]
            exact hd2
    rcases hbundle with ⟨la, hrun, hst, hopt, hwd, hposla, hpbla, hremla, hblenla, htkla,
      hladig, hnfla⟩
    have hsalt : l.start < la.pos := by omega
    by_cases hend : la.buffer.length ≤ la.pos
    · -- the digit run consumed the buffer: the sentinel is not a separator
      have hem := emit_number_pack u { la with width := 0 }
        (show la.start < la.pos from by omega) hpbla
      refine ⟨_, _, ?_, Or.inl hem.1, hem.2.1, hem.2.2.1, hem.2.2.2.1, ?_, ?_, ?_⟩
      · simp only [lexNumberF, hrun, scan_end la hend]
        rw [if_neg (show ¬ (nulChar = ',') from by decide),
          if_neg (show ¬ (nulChar = '.') from by decide),
          if_neg (show ¬ (u.isLetter nulChar = true) from by rw [u.isLetter_nul]; decide)]
        rw [undo_spec]
        simp
      · rw [hem.2.2.2.2.1]
        exact hopt
      · rw [hem.2.2.2.2.2.1]
        exact hremla
      · intro hn
        rw [hem.2.2.2.2.2.2]
        exact hnfla hn
    · push_neg at hend
      rcases scan_lt2 la hend with ⟨r, l1, hscan1, hstart1, hopt1, hw1, hpos1, hlen1, htake1,
        hdrop1, hget1, hid1, hmem1, hnosp1, hsub1⟩
      have htk1x : l1.buffer.take l.pos = l.buffer.take l.pos := by
        rw [take_prefix_mono htake1 hposla, htkla]
      have hh1 : connChars.contains (l1.buffer.getD l.start nulChar) = false := by
        rw [take_stable_getD htk1x hsp nulChar]
        exact hh
      have hdig1 : u.isDigit (l1.buffer.getD (la.pos - 1) nulChar) = true := by
        rw [take_stable_getD htake1 (by omega) nulChar]
        exact hladig
      by_cases hcom : r = ','
      · -- a thousands comma: the run continues only before another digit
        subst hcom
        by_cases hpend : l1.buffer.length ≤ l1.pos
        · -- nothing to peek: rewind over the comma and emit the number
          have hpeek := peek_end l1 hpend
          have hX : Lexer.undo l1 = { l1 with pos := la.pos, width := 0 } := by
            rw [undo_spec, hpos1, hw1, Nat.add_sub_cancel]
          have hem := emit_number_pack u { l1 with pos := la.pos, width := 0 }
            (show l1.start < la.pos from by rw [hstart1, hst]; omega)
            (show la.pos ≤ l1.buffer.length from by omega)
          refine ⟨_, _, ?_, Or.inl hem.1, hem.2.1, hem.2.2.1, hem.2.2.2.1, ?_, ?_, ?_⟩
          · simp only [lexNumberF, hrun, hscan1, hpeek, u.isDigit_nul, hX]
            simp
          · rw [hem.2.2.2.2.1, hopt1, hopt]
          · rw [hem.2.2.2.2.2.1]
            show l1.buffer.length - la.pos ≤ l.remaining
            simp only [Lexer.remaining] at hremla ⊢
            omega
          · intro hn
            rw [hem.2.2.2.2.2.2]
            exact nulfree_step hsub1 (hnfla hn)
        · push_neg at hpend
          rcases peek_lt2 l1 hpend with ⟨p, lp, hpeek, hstartp, hposp, hwp, hoptp, hlenp,
            htakep, hdropp, hgetp, hidp, hmemp, hsubp, hafterp⟩
          have htkp0 : lp.buffer.take l.pos = l.buffer.take l.pos := by
            rw [take_prefix_mono htakep (show l.pos ≤ l1.pos from by omega), htk1x]
          by_cases hpd : u.isDigit p = true
          · -- another digit follows the comma: keep scanning the number
            have hflp : lp.remaining < fuel := by
              simp only [Lexer.remaining] at hf hremla ⊢
              rw [hlenp, hposp, hpos1, hlen1]
              omega
            have hsplp : lp.start < lp.pos := by
              rw [hstartp, hstart1, hst, hposp, hpos1]
              omega
            have hpllp : lp.pos ≤ lp.buffer.length := by
              rw [hposp, hlenp]
              omega
            have hhlp : connChars.contains (lp.buffer.getD lp.start nulChar) = false := by
              rw [hstartp, hstart1, hst, take_stable_getD htkp0 hsp nulChar]
              exact hh
            have hinvlp : u.isDigit (lp.buffer.getD (lp.pos - 1) nulChar) = true ∨
                u.isDigit (lp.buffer.getD lp.pos nulChar) = true := by
              right
              rw [hposp, getD_eq_of_getElem? hgetp]
              exact hpd
            rcases ih lp hflp hsplp hpllp hhlp hinvlp with
              ⟨l3, t, hruni, ht1, ht2, ht3, ht4, ht5, ht6, ht7⟩
            refine ⟨l3, t, ?_, ht1, ht2, ht3, ht4, ?_, ?_, ?_⟩
            · simp only [lexNumberF, hrun, hscan1, hpeek, hpd]
              simp
              exact hruni
            · rw [ht5, hoptp, hopt1, hopt]
            · simp only [Lexer.remaining] at ht6 hremla ⊢
              rw [hlenp, hposp, hpos1, hlen1] at ht6
              omega
            · intro hn
              exact ht7 (nulfree_step hsubp (nulfree_step hsub1 (hnfla hn)))
          · -- no digit after the comma: rewind over it and emit the number
            have hX : Lexer.undo lp = { lp with pos := la.pos, width := 0 } := by
              rw [undo_spec, hposp, hwp, hpos1, hw1, Nat.add_sub_cancel]
            have hem := emit_number_pack u { lp with pos := la.pos, width := 0 }
              (show lp.start < la.pos from by rw [hstartp, hstart1, hst]; omega)
              (show la.pos ≤ lp.buffer.length from by rw [hlenp, hlen1]; omega)
            refine ⟨_, _, ?_, Or.inl hem.1, hem.2.1, hem.2.2.1, hem.2.2.2.1, ?_, ?_, ?_⟩
            · simp only [lexNumberF, hrun, hscan1, hpeek, hpd, hX]
              simp
            · rw [hem.2.2.2.2.1, hoptp, hopt1, hopt]
            · rw [hem.2.2.2.2.2.1]
              show lp.buffer.length - la.pos ≤ l.remaining
              simp only [Lexer.remaining] at hremla ⊢
              rw [hlenp, hlen1]
              omega
            · intro hn
              rw [hem.2.2.2.2.2.2]
              exact nulfree_step hsubp (nulfree_step hsub1 (hnfla hn))
      · by_cases hdot : r = '.'
        · -- a decimal point: digits may continue, a second point makes a word
          subst hdot
          by_cases hpend : l1.buffer.length ≤ l1.pos
          · -- nothing to peek: rewind over the point and emit the number
            have hpeek := peek_end l1 hpend
            have hX : Lexer.undo l1 = { l1 with pos := la.pos, width := 0 } := by
              rw [undo_spec, hpos1, hw1, Nat.add_sub_cancel]
            have hem := emit_number_pack u { l1 with pos := la.pos, width := 0 }
              (show l1.start < la.pos from by rw [hstart1, hst]; omega)
              (show la.pos ≤ l1.buffer.length from by omega)
            refine ⟨_, _, ?_, Or.inl hem.1, hem.2.1, hem.2.2.1, hem.2.2.2.1, ?_, ?_, ?_⟩
            · simp only [lexNumberF, hrun, hscan1, hpeek, u.isDigit_nul, hX]
              simp
            · rw [hem.2.2.2.2.1, hopt1, hopt]
            · rw [hem.2.2.2.2.2.1]
              show l1.buffer.length - la.pos ≤ l.remaining
              simp only [Lexer.remaining] at hremla ⊢
              omega
            · intro hn
              rw [hem.2.2.2.2.2.2]
              exact nulfree_step hsub1 (hnfla hn)
          · push_neg at hpend
            rcases peek_lt2 l1 hpend with ⟨p, lp, hpeek, hstartp, hposp, hwp, hoptp, hlenp,
              htakep, hdropp, hgetp, hidp, hmemp, hsubp, hafterp⟩
            have htkp0 : lp.buffer.take l.pos = l.buffer.take l.pos := by
              rw [take_prefix_mono htakep (show l.pos ≤ l1.pos from by omega), htk1x]
            by_cases hpd : u.isDigit p = true
            · -- digits after the decimal point: scan them, then decide
              have hplt2 : lp.pos < lp.buffer.length := by
                rw [hposp, hlenp]
                omega
              have hgdp : lp.buffer.getD lp.pos nulChar = p := by
                rw [hposp]
                exact getD_eq_of_getElem? hgetp
              have hcamp2 : ¬ (lp.buffer.getD lp.pos nulChar = '&') := by
                rw [hgdp]
                intro hcon
                rw [hcon, u.isDigit_amp] at hpd
                exact absurd hpd (by decide)
              have hchy2 : hyphens.contains (lp.buffer.getD lp.pos nulChar) = false := by
                rw [hgdp]
                rcases hcc : hyphens.contains p with _ | _
                · rfl
                · have hmem2 : p ∈ hyphens := by simpa using hcc
                  rw [u.isDigit_hyphens _ hmem2] at hpd
                  exact absurd hpd (by decide)
              have hstep := acceptOnF_step u.isDigit fuel lp hplt2 (by rw [hgdp]; exact hpd)
                hcamp2 hchy2
              have hZf : ({ lp with width := 1, pos := lp.pos + 1 } : Lexer).remaining < fuel := by
                simp only [Lexer.remaining] at hf hremla ⊢
                rw [hlenp, hposp, hpos1, hlen1]
                omega
              rcases acceptOnF_master u.isDigit u.isDigit_nul fuel ({ lp with width := 1, pos := lp.pos + 1 }) hZf (show lp.pos + 1 ≤ lp.buffer.length from by omega) with
                ⟨lb, hrunb, hstb, hoptb, hwb, hposb, hpbb, hremb, hblenb, htkb, hlastb, hnfb⟩
              have hacc : lp.acceptOnF u.isDigit (fuel + 1) = some lb := hstep.trans hrunb
              have hstbx : lb.start = lp.start := hstb
              have hoptbx : lb.options = lp.options := hoptb
              have hposbx : lp.pos + 1 ≤ lb.pos := hposb
              have hrembx : lb.buffer.length - lb.pos ≤ lp.buffer.length - (lp.pos + 1) := hremb
              have hblenbx : lb.buffer.length ≤ lp.buffer.length := hblenb
              have htkbx : lb.buffer.take (lp.pos + 1) = lp.buffer.take (lp.pos + 1) := htkb
              have hnfbx : nulChar ∉ lp.buffer → nulChar ∉ lb.buffer := hnfb
              have hlastbx : lp.pos + 1 < lb.pos →
                  u.isDigit (lb.buffer.getD (lb.pos - 1) nulChar) = true := hlastb
              have hlbdig : u.isDigit (lb.buffer.getD (lb.pos - 1) nulChar) = true := by
                rcases Nat.lt_or_ge (lp.pos + 1) lb.pos with hc | hc
                · exact hlastbx hc
                · have hpeq : lb.pos = lp.pos + 1 := by omega
                  rw [hpeq, Nat.add_sub_cancel, take_stable_getD htkbx (by omega) nulChar, hgdp]
                  exact hpd
              have htkb0 : lb.buffer.take l.pos = l.buffer.take l.pos := by
                rw [take_prefix_mono htkbx (show l.pos ≤ lp.pos + 1 from by omega), htkp0]
              have hlbst : lb.start = l.start := by
                rw [hstbx, hstartp, hstart1, hst]
              by_cases hbend : lb.buffer.length ≤ lb.pos
              · -- the decimal digits consumed the buffer: emit the number
                have hpeek2 := peek_end lb hbend
                have hem := emit_number_pack u lb
                  (show lb.start < lb.pos from by rw [hlbst]; omega) hpbb
                refine ⟨_, _, ?_, Or.inl hem.1, hem.2.1, hem.2.2.1, hem.2.2.2.1, ?_, ?_, ?_⟩
                · simp only [lexNumberF, hrun, hscan1, hpeek, hpd, hacc, hpeek2]
                  simp
                  intro hcon
                  exact absurd hcon (by decide)
                · rw [hem.2.2.2.2.1, hoptbx, hoptp, hopt1, hopt]
                · rw [hem.2.2.2.2.2.1]
                  show lb.buffer.length - lb.pos ≤ l.remaining
                  simp only [Lexer.remaining] at hremla ⊢
                  omega
                · intro hn
                  rw [hem.2.2.2.2.2.2]
                  exact hnfbx (nulfree_step hsubp (nulfree_step hsub1 (hnfla hn)))
              · push_neg at hbend
                rcases peek_lt2 lb hbend with ⟨p2, lq, hpeek2, hstartq, hposq, hwq, hoptq,
                  hlenq, htakeq, hdropq, hgetq, hidq, hmemq, hsubq, hafterq⟩
                have htkq0 : lq.buffer.take l.pos = l.buffer.take l.pos := by
                  rw [take_prefix_mono htakeq (show l.pos ≤ lb.pos from by omega), htkb0]
                by_cases hp2 : p2 = '.'
                · -- a second point: not a number after all, transfer to Word
                  have hflq : lq.remaining < fuel + 1 := by
                    simp only [Lexer.remaining] at hf hremla ⊢
                    rw [hlenq, hposq]
                    omega
                  have hsplq : lq.start < lq.pos := by
                    rw [hstartq, hlbst, hposq]
                    omega
                  have hpllq : lq.pos ≤ lq.buffer.length := by
                    rw [hposq, hlenq]
                    omega
                  have hhlq : connChars.contains (lq.buffer.getD lq.start nulChar) = false := by
                    rw [hstartq, hlbst, take_stable_getD htkq0 hsp nulChar]
                    exact hh
                  have hinvlq : connChars.contains (lq.buffer.getD (lq.pos - 1) nulChar) = true →
                      u.isLetterOrDigit (lq.buffer.getD lq.pos nulChar) = true := by
                    intro hcl
                    have hdq : u.isDigit (lq.buffer.getD (lq.pos - 1) nulChar) = true := by
                      rw [hposq, take_stable_getD htakeq (by omega) nulChar]
                      exact hlbdig
                    have halq : u.isLetterOrDigit (lq.buffer.getD (lq.pos - 1) nulChar) = true := by
                      simp only [Uni.isLetterOrDigit, hdq, Bool.or_true]
                    rw [uni_alnum_not_conn u halq] at hcl
                    exact absurd hcl (by decide)
                  rcases lexWordF_master u (fuel + 1) lq hflq hsplq hpllq hhlq hinvlq with
                    ⟨l3, t, hrunw, wt1, wt2, wt3, wt4, wt5, wt6, wt7⟩
                  refine ⟨l3, t, ?_, Or.inr ⟨wt1, wt2⟩, wordOk_ne_nil wt2, wt3, wt4, ?_, ?_, ?_⟩
                  · simp only [lexNumberF, hrun, hscan1, hpeek, hpd, hacc, hpeek2, hp2]
                    simp
                    exact hrunw
                  · rw [wt5, hoptq, hoptbx, hoptp, hopt1, hopt]
                  · simp only [Lexer.remaining] at wt6 hremla ⊢
                    rw [hlenq, hposq] at wt6
                    omega
                  · intro hn
                    exact wt7 (nulfree_step hsubq (hnfbx (nulfree_step hsubp
                      (nulfree_step hsub1 (hnfla hn)))))
                · -- no second point: the decimal number ends here
                  have hem := emit_number_pack u lq
                    (show lq.start < lq.pos from by rw [hstartq, hlbst, hposq]; omega)
                    (show lq.pos ≤ lq.buffer.length from by rw [hposq, hlenq]; omega)
                  refine ⟨_, _, ?_, Or.inl hem.1, hem.2.1, hem.2.2.1, hem.2.2.2.1, ?_, ?_, ?_⟩
                  · simp only [lexNumberF, hrun, hscan1, hpeek, hpd, hacc, hpeek2, hp2]
                    simp
                  · rw [hem.2.2.2.2.1, hoptq, hoptbx, hoptp, hopt1, hopt]
                  · rw [hem.2.2.2.2.2.1]
                    show lq.buffer.length - lq.pos ≤ l.remaining
                    simp only [Lexer.remaining] at hremla ⊢
                    rw [hlenq, hposq]
                    omega
                  · intro hn
                    rw [hem.2.2.2.2.2.2]
                    exact nulfree_step hsubq (hnfbx (nulfree_step hsubp
                      (nulfree_step hsub1 (hnfla hn))))
            · -- no digit after the point: rewind over it and emit the number
              have hX : Lexer.undo lp = { lp with pos := la.pos, width := 0 } := by
                rw [undo_spec, hposp, hwp, hpos1, hw1, Nat.add_sub_cancel]
              have hem := emit_number_pack u { lp with pos := la.pos, width := 0 }
                (show lp.start < la.pos from by rw [hstartp, hstart1, hst]; omega)
                (show la.pos ≤ lp.buffer.length from by rw [hlenp, hlen1]; omega)
              refine ⟨_, _, ?_, Or.inl hem.1, hem.2.1, hem.2.2.1, hem.2.2.2.1, ?_, ?_, ?_⟩
              · simp only [lexNumberF, hrun, hscan1, hpeek, hpd, hX]
                simp
              · rw [hem.2.2.2.2.1, hoptp, hopt1, hopt]
              · rw [hem.2.2.2.2.2.1]
                show lp.buffer.length - la.pos ≤ l.remaining
                simp only [Lexer.remaining] at hremla ⊢
                rw [hlenp, hlen1]
                omega
              · intro hn
                rw [hem.2.2.2.2.2.2]
                exact nulfree_step hsubp (nulfree_step hsub1 (hnfla hn))
        · by_cases hlet : u.isLetter r = true
          · -- a letter right after the digits: rewind it, transfer to Word
            have hX : Lexer.undo l1 = { l1 with pos := la.pos, width := 0 } := by
              rw [undo_spec, hpos1, hw1, Nat.add_sub_cancel]
            have hfX : ({ l1 with pos := la.pos, width := 0 } : Lexer).remaining < fuel + 1 := by
              simp only [Lexer.remaining] at hf hremla ⊢
              rw [hlen1]
              omega
            have hspX : l1.start < la.pos := by
              rw [hstart1, hst]
              omega
            have hplX : la.pos ≤ l1.buffer.length := by
              omega
            have hhX : connChars.contains (l1.buffer.getD l1.start nulChar) = false := by
              rw [hstart1, hst]
              exact hh1
            have hinvX : connChars.contains (l1.buffer.getD (la.pos - 1) nulChar) = true →
                u.isLetterOrDigit (l1.buffer.getD la.pos nulChar) = true := by
              intro hcl
              have halnum1 : u.isLetterOrDigit (l1.buffer.getD (la.pos - 1) nulChar) = true := by
                simp only [Uni.isLetterOrDigit, hdig1, Bool.or_true]
              rw [uni_alnum_not_conn u halnum1] at hcl
              exact absurd hcl (by decide)
            rcases lexWordF_master u (fuel + 1) ({ l1 with pos := la.pos, width := 0 }) hfX hspX hplX hhX hinvX with ⟨l3, t, hrunw, wt1, wt2, wt3, wt4, wt5, wt6, wt7⟩
            refine ⟨l3, t, ?_, Or.inr ⟨wt1, wt2⟩, wordOk_ne_nil wt2, wt3, wt4, ?_, ?_, ?_⟩
            · simp only [lexNumberF, hrun, hscan1, hcom, hdot, hlet, hX]
              simp
              exact hrunw
            · rw [wt5]
              exact hopt1.trans hopt
            · simp only [Lexer.remaining] at wt6 hremla ⊢
              rw [hlen1] at wt6
              omega
            · intro hn
              exact wt7 (nulfree_step hsub1 (hnfla hn))
          · -- not a separator and not a letter: the number ends before this rune
            have hX : Lexer.undo l1 = { l1 with pos := la.pos, width := 0 } := by
              rw [undo_spec, hpos1, hw1, Nat.add_sub_cancel]
            have hem := emit_number_pack u { l1 with pos := la.pos, width := 0 }
              (show l1.start < la.pos from by rw [hstart1, hst]; omega)
              (show la.pos ≤ l1.buffer.length from by omega)
            refine ⟨_, _, ?_, Or.inl hem.1, hem.2.1, hem.2.2.1, hem.2.2.2.1, ?_, ?_, ?_⟩
            · simp only [lexNumberF, hrun, hscan1, hcom, hdot, hlet, hX]
              simp
            · rw [hem.2.2.2.2.1, hopt1, hopt]
            · rw [hem.2.2.2.2.2.1]
              show l1.buffer.length - la.pos ≤ l.remaining
              simp only [Lexer.remaining] at hremla ⊢
              omega
            · intro hn
              rw [hem.2.2.2.2.2.2]
              exact nulfree_step hsub1 (hnfla hn)

/-! ## The lexSymbol master: one Symbol of one code point, or a pure rescan

`lexSymbol` is entered right after a single rune was scanned, so the start
offset sits one code point before the cursor and the stored width is one. -/

theorem lexSymbol_master (u : Uni) (l0 : Lexer) (hsp : l0.start + 1 = l0.pos)
    (hw : l0.width = 1) (hpl : l0.pos ≤ l0.buffer.length) :
    ∃ l2 ot, lexSymbol u l0 = (l2, ot) ∧
      l2.start = l2.pos ∧ l2.pos ≤ l2.buffer.length ∧ l2.options = l0.options ∧
      (∀ t, ot = some t → t.Class = SymbolToken ∧ t.Value.length = 1) ∧
      (ot = none → l2.remaining < l0.remaining) ∧
      l2.remaining ≤ l0.remaining ∧
      (nulChar ∉ l0.buffer → nulChar ∉ l2.buffer) := by
  rcases hpr : (if l0.lastRune = '&' then l0.probeEntity else (l0, false)) with ⟨lpr, pb⟩
  rcases pb with _ | _
  · -- no entity was substituted: a Symbol token will be emitted
    have hlpr : lpr = l0 := by
      by_cases hamp : l0.lastRune = '&'
      · rw [if_pos hamp] at hpr
        have h0 := probeEntity_false_eq l0 (by rw [hpr])
        rw [hpr] at h0
        exact h0
      · rw [if_neg hamp] at hpr
        exact (congrArg Prod.fst hpr).symm
    subst lpr
    by_cases hq1 : normalizesQuotes l0.options = true ∧ (normalQuote l0.lastRune).isSome = true
    · rcases hq1 with ⟨hnq, hqs⟩
      rcases Option.isSome_iff_exists.mp hqs with ⟨q, hq⟩
      have hqnul : ¬ (q = nulChar) := normalQuote_ne_nul hq
      by_cases hqend : l0.buffer.length ≤ l0.pos
      · -- at the end of the buffer the peeked sentinel never matches the quote
        have hpeek := peek_end l0 hqend
        have hrne : ¬ (nulChar = l0.lastRune) := by
          intro hcon
          rw [← hcon, show normalQuote nulChar = none from by decide] at hq
          exact Option.noConfusion hq
        have hem := emit_symbol_pack u l0 hpl
        refine ⟨_, some (Lexer.emit u l0 SymbolToken).2, ?_, hem.2.2.1, hem.2.2.2.1,
          hem.2.2.2.2.1, ?_, ?_, le_of_eq hem.2.2.2.2.2.1, ?_⟩
        · simp only [lexSymbol, hpr, hpeek, hnq, hqs, hq, hrne]
          simp
        · intro t ht
          obtain rfl := Option.some_inj.mp ht
          refine ⟨hem.1, ?_⟩
          rw [hem.2.1, slice_length l0.buffer l0.start l0.pos hpl]
          omega
        · intro hcon
          exact Option.noConfusion hcon
        · intro hn
          rw [hem.2.2.2.2.2.2]
          exact hn
      · push_neg at hqend
        rcases peek_lt2 l0 hqend with ⟨p, lp2, hpeek, hstartp, hposp, hwp, hoptp, hlenp,
          htakep, hdropp, hgetp, hidp, hmemp, hsubp, hafterp⟩
        by_cases hpm : p = l0.lastRune
        · -- the same quote follows: merge the pair into one double quote
          obtain ⟨nb, hnb⟩ : ∃ nb, nb = lp2.buffer.take (l0.pos - 1) ++ q ::
              lp2.buffer.drop (l0.pos + 1) := ⟨_, rfl⟩
          have hXbuf : lp2.buffer.take (lp2.pos - lp2.width) ++ q ::
              lp2.buffer.drop (lp2.pos + lp2.width) = nb := by
            rw [hnb, hposp, hwp, hw]
          have hnblen : nb.length + 1 = l0.buffer.length := by
            rw [hnb]
            simp only [List.length_append, List.length_cons, List.length_take,
              List.length_drop]
            omega
          have hplX : ({ lp2 with buffer := nb } : Lexer).pos ≤
              ({ lp2 with buffer := nb } : Lexer).buffer.length := by
            show lp2.pos ≤ nb.length
            omega
          have hem := emit_symbol_pack u ({ lp2 with buffer := nb }) hplX
          have hval : ((nb.take lp2.pos).drop lp2.start) = [q] := by
            rw [hnb, hposp, hstartp]
            refine slice_splice q ?_ ?_
            · simp only [List.length_take]
              omega
            · omega
          refine ⟨_, some (Lexer.emit u ({ lp2 with buffer := nb }) SymbolToken).2, ?_,
            hem.2.2.1, hem.2.2.2.1, ?_, ?_, ?_, ?_, ?_⟩
          · simp only [lexSymbol, hpr, hpeek, hnq, hqs, hq, hpm, Option.getD_some]
            simp only [hXbuf]
            simp
          · exact (hem.2.2.2.2.1).trans hoptp
          · intro t ht
            obtain rfl := Option.some_inj.mp ht
            refine ⟨hem.1, ?_⟩
            rw [hem.2.1]
            show ((nb.take lp2.pos).drop lp2.start).length = 1
            rw [hval]
            rfl
          · intro hcon
            exact Option.noConfusion hcon
          · rw [hem.2.2.2.2.2.1]
            show nb.length - lp2.pos ≤ l0.remaining
            simp only [Lexer.remaining]
            omega
          · intro hn
            rw [hem.2.2.2.2.2.2]
            show nulChar ∉ nb
            rw [hnb]
            exact nulfree_splice_cons (nulfree_step hsubp hn) hqnul
        · -- a different rune follows: emit the quote alone
          have hem := emit_symbol_pack u lp2
            (show lp2.pos ≤ lp2.buffer.length from by omega)
          refine ⟨_, some (Lexer.emit u lp2 SymbolToken).2, ?_, hem.2.2.1, hem.2.2.2.1,
            ?_, ?_, ?_, ?_, ?_⟩
          · simp only [lexSymbol, hpr, hpeek, hnq, hqs, hpm]
            simp
          · exact (hem.2.2.2.2.1).trans hoptp
          · intro t ht
            obtain rfl := Option.some_inj.mp ht
            refine ⟨hem.1, ?_⟩
            rw [hem.2.1, slice_length lp2.buffer lp2.start lp2.pos (by omega)]
            omega
          · intro hcon
            exact Option.noConfusion hcon
          · rw [hem.2.2.2.2.2.1]
            show lp2.buffer.length - lp2.pos ≤ l0.remaining
            simp only [Lexer.remaining]
            omega
          · intro hn
            rw [hem.2.2.2.2.2.2]
            exact nulfree_step hsubp hn
    · by_cases hq2 : normalizesQuotes l0.options = true ∧ l0.lastRune = 'ʼ'
      · -- modifier apostrophe: replaced in place by the ASCII apostrophe
        obtain ⟨nb, hnb⟩ : ∃ nb, nb = l0.buffer.take (l0.pos - 1) ++ aposChar ::
            l0.buffer.drop l0.pos := ⟨_, rfl⟩
        have hXbuf : l0.buffer.take (l0.pos - l0.width) ++ aposChar ::
            l0.buffer.drop l0.pos = nb := by
          rw [hnb, hw]
        have hnblen : nb.length = l0.buffer.length := by
          rw [hnb]
          simp only [List.length_append, List.length_cons, List.length_take,
            List.length_drop]
          omega
        have hplX : ({ l0 with buffer := nb } : Lexer).pos ≤
            ({ l0 with buffer := nb } : Lexer).buffer.length := by
          show l0.pos ≤ nb.length
          omega
        have hem := emit_symbol_pack u ({ l0 with buffer := nb }) hplX
        have hval : ((nb.take l0.pos).drop l0.start) = [aposChar] := by
          rw [hnb]
          refine slice_splice aposChar ?_ ?_
          · simp only [List.length_take]
            omega
          · omega
        refine ⟨_, some (Lexer.emit u ({ l0 with buffer := nb }) SymbolToken).2, ?_,
          hem.2.2.1, hem.2.2.2.1, hem.2.2.2.2.1, ?_, ?_, ?_, ?_⟩
        · simp only [lexSymbol, hpr]
          simp
          rw [if_neg hq1, if_pos hq2, hXbuf]
          exact ⟨rfl, rfl⟩
        · intro t ht
          obtain rfl := Option.some_inj.mp ht
          refine ⟨hem.1, ?_⟩
          rw [hem.2.1]
          show ((nb.take l0.pos).drop l0.start).length = 1
          rw [hval]
          rfl
        · intro hcon
          exact Option.noConfusion hcon
        · rw [hem.2.2.2.2.2.1]
          show nb.length - l0.pos ≤ l0.remaining
          simp only [Lexer.remaining]
          omega
        · intro hn
          rw [hem.2.2.2.2.2.2]
          show nulChar ∉ nb
          rw [hnb]
          exact nulfree_splice_cons hn (by decide)
      · -- no normalization applies: emit the rune as scanned
        have hem := emit_symbol_pack u l0 hpl
        refine ⟨_, some (Lexer.emit u l0 SymbolToken).2, ?_, hem.2.2.1, hem.2.2.2.1,
          hem.2.2.2.2.1, ?_, ?_, le_of_eq hem.2.2.2.2.2.1, ?_⟩
        · simp only [lexSymbol, hpr, hq1, hq2]
          simp
        · intro t ht
          obtain rfl := Option.some_inj.mp ht
          refine ⟨hem.1, ?_⟩
          rw [hem.2.1, slice_length l0.buffer l0.start l0.pos hpl]
          omega
        · intro hcon
          exact Option.noConfusion hcon
        · intro hn
          rw [hem.2.2.2.2.2.2]
          exact hn
  · -- the entity probe succeeded: nothing is emitted, scanning resumes
    have hamp : l0.lastRune = '&' := by
      by_cases hamp : l0.lastRune = '&'
      · exact hamp
      · rw [if_neg hamp] at hpr
        exact absurd (congrArg Prod.snd hpr) (by simp)
    have hpe : l0.probeEntity = (lpr, true) := by
      rw [if_pos hamp] at hpr
      exact hpr
    rcases probeEntity_true2 hpe hw with ⟨m, alt, hm3, hmle, halen, hanul, hst2, hw2,
      hopt2, hp2, hbuf2, hlen2, htk2, hnf2, hmat2⟩
    refine ⟨lpr, none, ?_, ?_, ?_, hopt2, ?_, ?_, ?_, hnf2⟩
    · simp only [lexSymbol, hpr]
      exact if_pos trivial
    · rw [hst2, hp2]
      omega
    · rw [hp2]
      omega
    · intro t ht
      exact Option.noConfusion ht
    · intro _
      simp only [Lexer.remaining]
      omega
    · simp only [Lexer.remaining]
      omega

/-! ## Concrete evaluations settling the scenario claims -/

/-- Claim C5: scanning the input "123,456abc" with no options emits exactly
one Word token with value "123,456abc" followed by the End token: the
comma-joined digit run followed directly by letters collapses into a single
Word whose start offset is preserved across the Number-to-Word fallback. -/
theorem claim5_comma_number_word_fallback :
    Tokens goUni NoOptions "123,456abc".toList =
      [{ Class := WordToken, Value := "123,456abc".toList },
       { Class := EndToken, Value := [] }] := by decide

/-- Claim C8, behaviour of the code at the failing input: the modifier
apostrophe U+02BC is a Unicode letter (category Lm), so `lexText` dispatches
it to `lexWord`, never to `lexSymbol`; scanning the input consisting solely of
U+02BC with the Quotes option yields a Word token whose value is the unchanged
U+02BC, not the documented Symbol token with the ASCII apostrophe. -/
theorem claim8_modifier_apostrophe_is_word :
    Tokens goUni Quotes ['ʼ'] =
      [{ Class := WordToken, Value := ['ʼ'] },
       { Class := EndToken, Value := [] }] := by decide

/-- Claim C1, counterexample: scanning the control character U+0001 with the
Spaces and Linebreaks options emits only the End token, so the concatenation
of the non-End token values is empty and does not reproduce the input. -/
theorem claim1_counterexample :
    ¬ ((((Tokens goUni (Spaces ||| Linebreaks) ['\x01']).filter
          (fun t => !t.IsEnd)).map Token.Value).flatten = ['\x01']) := by decide

/-- Claim C7, counterexample: a literal NUL decodes to the same rune `0` that
signals the end of the buffer but advances the cursor past it, so for the
input consisting of one NUL byte the End token carries the non-empty value
"\x00", and for the input NUL-then-letter the End state is reached with the
cursor at position 1 of a buffer of length 2. -/
theorem claim7_counterexample :
    Tokens goUni NoOptions ['\x00'] = [{ Class := EndToken, Value := ['\x00'] }] ∧
    (runItem goUni NoOptions ['\x00', 'a']).elim 0 (fun p => p.1.pos) = 1 ∧
    (runItem goUni NoOptions ['\x00', 'a']).elim 0 (fun p => p.1.buffer.length) = 2 := by
  refine ⟨by decide, by decide, by decide⟩

/-! ## Claim C6: the entity probe on failure -/

/-- Claim C6: whenever reference resolution is attempted after the cursor has
consumed an ampersand and resolution fails - the Entities option is off, or
the text at the ampersand does not match ampersand-wordchars-semicolon, or
decoding yields text identical to the raw match - the resolver reports
failure, and failure always leaves both the buffer content and the cursor
position (the whole lexer state) exactly as they were before the attempt. -/
theorem claim6_probe_failure_is_pure (l : Lexer) :
    (l.probeEntity.2 = false → l.probeEntity.1 = l) ∧
    (unescapesEntities l.options = false → l.probeEntity.2 = false) ∧
    (entityMatch (l.buffer.drop (l.pos - l.width)) = none → l.probeEntity.2 = false) ∧
    (∀ m, entityMatch (l.buffer.drop (l.pos - l.width)) = some m →
      htmlUnescape ((l.buffer.drop (l.pos - l.width)).take m) =
        (l.buffer.drop (l.pos - l.width)).take m →
      l.probeEntity.2 = false) := by
  unfold Lexer.probeEntity
  refine ⟨?_, ?_, ?_, ?_⟩
  · intro h
    by_cases he : unescapesEntities l.options
    · simp only [he, if_true] at h ⊢
      rcases hm : entityMatch (l.buffer.drop (l.pos - l.width)) with _ | m
      · simp [hm] at h ⊢
      · simp only [hm] at h ⊢
        by_cases ha : htmlUnescape ((l.buffer.drop (l.pos - l.width)).take m) =
            (l.buffer.drop (l.pos - l.width)).take m
        · simp [ha]
        · simp [ha] at h
    · simp [he]
  · intro he
    simp [he]
  · intro hm
    by_cases he : unescapesEntities l.options <;> simp [he, hm]
  · intro m hm ha
    by_cases he : unescapesEntities l.options <;> simp [he, hm, ha]

/-- Witness for claim C6 at a concrete lexer state: the cursor has just
consumed the ampersand of "&zzz;" with the Entities option enabled; the span
matches the entity shape but decodes to itself, so the probe fails and the
state is unchanged. -/
theorem claim6_witness :
    ((initLexer Entities "&zzz;x".toList).scan.2.probeEntity.1 =
        (initLexer Entities "&zzz;x".toList).scan.2 ∧
      (initLexer Entities "&zzz;x".toList).scan.2.probeEntity.2 = false) := by
  have h := claim6_probe_failure_is_pure ((initLexer Entities "&zzz;x".toList).scan.2)
  have hfail := h.2.2.2 5 (by decide) (by decide)
  exact ⟨h.1 hfail, hfail⟩

end Tokenizer
